import Mathlib

/-!
Shallow embedding of the Pauper decklist normalizer (repository `Pauperwave/mtgo`).

Strings are modelled as `List Char` (`Str`).  JavaScript strings are sequences of
characters and every operation the source uses (`trim`, `split`, `includes`,
`toLowerCase`, template literals) acts on them as on sequences, so `List Char`
is a faithful model.  Whitespace is modelled as the ASCII whitespace characters
recognised by both JavaScript `trim()` and the `\s` regex class; the exotic
Unicode space code points accepted by JavaScript are not in play anywhere in
this development because all the concrete data is ASCII.
-/

namespace Mtgo

/-- Character strings, modelled as lists of characters. -/
abbrev Str := List Char

/-- ASCII whitespace, the subset of the JavaScript `\s` / `trim` class used here. -/
def isWs (c : Char) : Bool :=
  c == ' ' || c == '\t' || c == '\n' || c == '\r' || c == '\x0b' || c == '\x0c'

/-- JavaScript line terminators, which the regex `.` never matches. -/
def isLineTerm (c : Char) : Bool :=
  c == '\n' || c == '\r'

/-- JavaScript `String.prototype.trim`: drop whitespace from both ends. -/
def trim (s : Str) : Str :=
  ((s.dropWhile isWs).reverse.dropWhile isWs).reverse

/-- Numeric value of a big-endian digit string; models `parseInt(s, 10)`
on a string of decimal digits. -/
def natOfDigits (s : Str) : Nat :=
  s.foldl (fun a c => 10 * a + (c.toNat - 48)) 0

/-!
## Data model (`src/app/types/deck.ts`)

The TypeScript `Section` union has the seven declared members; the source
function `sectionFromTypeLine` in `src/app/utils/deck-normalizer.ts`
additionally returns the out-of-union value `'Unknown' as Section`, which the
constructor `Section.unknown` models.
-/

inductive Section where
  | creature
  | instant
  | sorcery
  | artifact
  | enchantment
  | land
  | sideboard
  | unknown
deriving DecidableEq

inductive LandCategory where
  | bounceland
  | artifactBi
  | artifactMono
  | gate
  | fixer
  | taplandBi
  | taplandMono
  | fetch
  | basic
  | other
deriving DecidableEq

structure ParsedCard where
  quantity : Nat
  name : Str
  isSideboard : Bool
deriving DecidableEq

structure ScryfallCard where
  name : Str
  type_line : Str
  cmc : Nat
  mana_cost : Option Str
  oracle_text : Str
  color_identity : List Str
deriving DecidableEq

structure NormalizedCard where
  quantity : Nat
  name : Str
  isSideboard : Bool
  «section» : Section
  cmc : Nat
  mana_cost : Option Str
  landCategory : Option LandCategory
deriving DecidableEq

/-!
## Line parser (`parseRawDeck`, `src/unnamed/part_003` lines 43-77)
-/

/-- The test `/^sideboard:?$/i.test(trimmedLine)`. -/
def isSideboardLine (t : Str) : Bool :=
  let low := t.map Char.toLower
  low == "sideboard".data || low == "sideboard:".data

/-- The match `trimmedLine.match(/^(\d+)\s+(.+)$/)`, returning
`(parseInt(match[1], 10), match[2])`.

`^(\d+)` greedily takes the maximal digit run, `\s+` the maximal whitespace
run after it, and `(.+)$` the rest of the line, which must be non-empty and
contain no line terminator (the regex `.` does not match them).  On
already-trimmed input – the only way `parseRawDeck` uses the regex – greedy
matching with backtracking coincides with this maximal-munch reading. -/
def matchCard (t : Str) : Option (Nat × Str) :=
  let ds := t.takeWhile Char.isDigit
  let r := t.dropWhile Char.isDigit
  let w := r.takeWhile isWs
  let rest := r.dropWhile isWs
  if ds.isEmpty || w.isEmpty || rest.isEmpty || rest.any isLineTerm then none
  else some (natOfDigits ds, rest)

/-- The body of the `for (const line of lines)` loop of `parseRawDeck`, with
the running `isSideboard` flag as explicit state. -/
def parseLoop : Bool → List Str → List ParsedCard
  | _, [] => []
  | sb, l :: ls =>
    let t := trim l
    if t.isEmpty then parseLoop sb ls
    else if isSideboardLine t then parseLoop true ls
    else
      match matchCard t with
      | some qn => ⟨qn.1, qn.2, sb⟩ :: parseLoop sb ls
      | none => parseLoop sb ls

/-- `parseRawDeck` (`src/unnamed/part_003`): `text.trim().split('\n')`, then
the line loop starting outside the sideboard. -/
def parseRawDeck (text : Str) : List ParsedCard :=
  parseLoop false ((trim text).splitOn '\n')

/-- Spec-side characterisation of one line of `parseRawDeck` (claim C3):
a blank line and a sideboard marker emit nothing, a `quantity name` line
emits exactly one card carrying the given flag, anything else is skipped. -/
def lineEmission (l : Str) (sb : Bool) : List ParsedCard :=
  let t := trim l
  if t.isEmpty then []
  else if isSideboardLine t then []
  else
    match matchCard t with
    | some qn => [⟨qn.1, qn.2, sb⟩]
    | none => []

/-- Spec-side flag for claim C3: a card emitted from line `i` is in the
sideboard exactly when some earlier line is a sideboard marker. -/
def markerBefore (ls : List Str) (i : Nat) : Bool :=
  (ls.take i).any (fun l => isSideboardLine (trim l))

/-!
## Auto-correct whitelist

`src/app/utils/card-autocorrect-whitelist.ts` holds a `Set` of canonical names;
`src/unnamed/part_003` lines 1-35 hold an older variant with a `Map` from the
searched name to the canonical name.  Both are embedded, in separate
namespaces.
-/

/-- The `Set` contents of `AUTOCORRECT_WHITELIST`
(`src/app/utils/card-autocorrect-whitelist.ts`). -/
def AUTOCORRECT_WHITELIST : List Str :=
  [ "Lórien Revealed".data
  , "Troll of Khazad-dûm".data
  , "Delver of Secrets // Insectile Aberration".data
  , "The Modern Age // Vector Glider".data
  , "Sagu Wildling // Roost Seek".data
  , "Tithing Blade // Consuming Sepulcher".data ]

/-- `shouldAutoApply` from `src/app/utils/card-autocorrect-whitelist.ts`:
membership of the suggested name in the whitelist set; the searched name is
not consulted. -/
def shouldAutoApply (searchedName suggestedName : Str) : Bool :=
  AUTOCORRECT_WHITELIST.contains suggestedName

namespace WhitelistMap

/-- The `Map` contents of `AUTOCORRECT_WHITELIST` (`src/unnamed/part_003`). -/
def AUTOCORRECT_WHITELIST : List (Str × Str) :=
  [ ("Lorien Revealed".data, "Lórien Revealed".data)
  , ("Troll of Khazad-dum".data, "Troll of Khazad-dûm".data)
  , ("Troll of Khazad dum".data, "Troll of Khazad-dûm".data)
  , ("Delver of Secrets".data, "Delver of Secrets // Insectile Aberration".data)
  , ("The Modern Age".data, "The Modern Age // Vector Glider".data)
  , ("Sagu Wildling".data, "Sagu Wildling // Roost Seek".data)
  , ("Tithing Blade".data, "Tithing Blade // Consuming Sepulcher".data) ]

/-- `getAutocorrectName` from `src/unnamed/part_003`. -/
def getAutocorrectName (searchedName : Str) : Option Str :=
  List.lookup searchedName AUTOCORRECT_WHITELIST

/-- `shouldAutoApply` from `src/unnamed/part_003` lines 32-35: the map entry
for the searched name must equal the suggested name. -/
def shouldAutoApply (searchedName suggestedName : Str) : Bool :=
  getAutocorrectName searchedName == some suggestedName

end WhitelistMap

/-!
## Land classifier (`categorizeLand`, `src/unnamed/part_003` lines 113-202)
-/

/-- Modelled from the spec: the curated name sets imported from
`~/constants/land-sets` (`BOUNCELAND`, `ARTIFACT_BI`, `ARTIFACT_MONO`,
`GATES`, `FIXER`, `TAPLAND_BI`, `TAPLAND_MONO`, `FETCH`, `BASIC`) are not
under `src/`; only their names are known from the import list and from
spec §4.3.  Every definition that touches them is therefore parametrised by
this record of membership predicates, and every claim is settled for all
possible set contents. -/
structure LandSets where
  bounceland : Str → Bool
  artifactBi : Str → Bool
  artifactMono : Str → Bool
  gates : Str → Bool
  fixer : Str → Bool
  taplandBi : Str → Bool
  taplandMono : Str → Bool
  fetch : Str → Bool
  basic : Str → Bool

/-- JavaScript `text.includes(m)`: `m` occurs as a contiguous substring. -/
def includes : Str → Str → Bool
  | text, [] => true
  | [], m => m.isEmpty
  | c :: rest, m => m.isPrefixOf (c :: rest) || includes rest m

/-- `contains` from the land-classifier file: case-insensitive substring test. -/
def contains (text : Str) (m : Str) : Bool :=
  includes (text.map Char.toLower) (m.map Char.toLower)

/-- `includesAll` from the land-classifier file. -/
def includesAll (text : Str) (words : List Str) : Bool :=
  words.all (fun w => includes (text.map Char.toLower) (w.map Char.toLower))

/-- `categorizeLand` (`src/unnamed/part_003`): curated-set lookup in priority
order, then the heuristic fallback chain.  The source returns from inside
`if (contains(oracle, 'enters tapped'))` only for exactly 1 or 2 colors and
otherwise falls through to the fetch test, which the two guarded branches
reproduce. -/
def categorizeLand (sets : LandSets) (card : ScryfallCard) : LandCategory :=
  let name := card.name
  let typeLine := card.type_line
  let oracle := card.oracle_text
  let colors := card.color_identity
  if sets.bounceland name then .bounceland
  else if sets.artifactBi name then .artifactBi
  else if sets.artifactMono name then .artifactMono
  else if sets.gates name then .gate
  else if sets.fixer name then .fixer
  else if sets.taplandBi name && colors.length == 2 then .taplandBi
  else if sets.taplandMono name && colors.length == 1 then .taplandMono
  else if sets.fetch name then .fetch
  else if sets.basic name then .basic
  else if includes typeLine "Basic".data then .basic
  else if includesAll oracle ["return a land".data, "control".data]
      && contains oracle "enters tapped".data then .bounceland
  else if includes typeLine "Land".data && includes typeLine "Artifact".data then
    (if contains name "bridge".data then .artifactBi else .artifactMono)
  else if includes typeLine "Gate".data then .gate
  else if !(includes typeLine "Gate".data) && contains oracle "any color".data then .fixer
  else if contains oracle "enters tapped".data && colors.length == 2 then .taplandBi
  else if contains oracle "enters tapped".data && colors.length == 1 then .taplandMono
  else if includesAll oracle ["search".data, "land".data] then .fetch
  else .other

/-- `landCategoryRank`: the index of the category in `CATEGORY_ORDER`
(`Bounceland, ArtifactBi, ArtifactMono, Gate, Fixer, TaplandBi, TaplandMono,
Fetch, Basic, Other`). -/
def landCategoryRank : LandCategory → Nat
  | .bounceland => 0
  | .artifactBi => 1
  | .artifactMono => 2
  | .gate => 3
  | .fixer => 4
  | .taplandBi => 5
  | .taplandMono => 6
  | .fetch => 7
  | .basic => 8
  | .other => 9

/-!
## Normalizer (`src/app/utils/deck-normalizer.ts`)
-/

/-- The characters of `name.split('//')[0]`: the text before the first
occurrence of `//`, or the whole string when there is none. -/
def beforeDoubleSlash : Str → Str
  | [] => []
  | '/' :: '/' :: _ => []
  | c :: rest => c :: beforeDoubleSlash rest

/-- `getFrontFaceName`: the trimmed front face; the source falls back to
`name.trim()` when the first split piece is the empty string (falsy). -/
def getFrontFaceName (name : Str) : Str :=
  let frontFace := beforeDoubleSlash name
  if frontFace.isEmpty then trim name else trim frontFace

/-- `sectionFromTypeLine` (`src/app/utils/deck-normalizer.ts` lines 80-95):
sideboard first, then the case-sensitive `includes` chain, with the
out-of-union fallback `'Unknown' as Section`. -/
def sectionFromTypeLine (typeLine : Str) (isSideboard : Bool) : Section :=
  if isSideboard then .sideboard
  else if includes typeLine "Creature".data then .creature
  else if includes typeLine "Land".data then .land
  else if includes typeLine "Instant".data then .instant
  else if includes typeLine "Sorcery".data then .sorcery
  else if includes typeLine "Enchantment".data then .enchantment
  else if includes typeLine "Artifact".data then .artifact
  else .unknown

/-- `sectionFromTypeLine` as in the variant `src/unnamed/part_004` lines
76-91, whose fallback is `'Sorcery'`. -/
def sectionFromTypeLineV4 (typeLine : Str) (isSideboard : Bool) : Section :=
  if isSideboard then .sideboard
  else if includes typeLine "Creature".data then .creature
  else if includes typeLine "Land".data then .land
  else if includes typeLine "Instant".data then .instant
  else if includes typeLine "Sorcery".data then .sorcery
  else if includes typeLine "Enchantment".data then .enchantment
  else if includes typeLine "Artifact".data then .artifact
  else .sorcery

/-- The resolution index: the `ReadonlyMap` is consulted only through `get`,
so it is modelled by its lookup function. -/
abbrev ScryfallIndex := Str → Option ScryfallCard

/-- The `for (const card of parsed)` loop of `normalizeDeckWithIndex`,
returning the `missingCards` and `normalized` accumulators in input order. -/
def normalizeLoop (sets : LandSets) (scryfallIndex : ScryfallIndex) :
    List ParsedCard → List Str × List NormalizedCard
  | [] => ([], [])
  | card :: rest =>
    let r := normalizeLoop sets scryfallIndex rest
    match scryfallIndex (getFrontFaceName card.name) with
    | none => (card.name :: r.1, r.2)
    | some scryfall =>
      let s := sectionFromTypeLine scryfall.type_line card.isSideboard
      let landCategory :=
        if s == Section.land then some (categorizeLand sets scryfall) else none
      (r.1, ⟨card.quantity, card.name, card.isSideboard, s,
             scryfall.cmc, scryfall.mana_cost, landCategory⟩ :: r.2)

/-- The aggregated error text
``Missing Scryfall data for: ${missingCards.join(', ')}``. -/
def missingMsg (missingCards : List Str) : Str :=
  "Missing Scryfall data for: ".data ++ List.intercalate ", ".data missingCards

/-- `normalizeDeckWithIndex` (`src/app/utils/deck-normalizer.ts` lines
137-180): a throw is modelled as `Except.error`, so an error produces no
partial output. -/
def normalizeDeckWithIndex (sets : LandSets) (parsed : List ParsedCard)
    (scryfallIndex : ScryfallIndex) : Except Str (List NormalizedCard) :=
  let r := normalizeLoop sets scryfallIndex parsed
  if r.1.isEmpty then .ok r.2 else .error (missingMsg r.1)

/-- `FUNCTIONAL_REPRINTS` lookup with fallback (`getCanonicalName`). -/
def getCanonicalName (cardName : Str) : Str :=
  if cardName == "Blue Elemental Blast".data then "Hydroblast".data
  else if cardName == "Red Elemental Blast".data then "Pyroblast".data
  else cardName

/-- `getCombinedQuantity`: total quantity of the functional-reprint group of
`card` inside `cards`. -/
def getCombinedQuantity (cards : List NormalizedCard) (card : NormalizedCard) : Nat :=
  (cards.filter (fun c => getCanonicalName c.name == getCanonicalName card.name)).foldl
    (fun sum c => sum + c.quantity) 0

/-- Sign-valued model of `a.localeCompare(b)`: lexicographic comparison by
character code (the deployment-locale collation is not modelled). -/
def strCmpI : Str → Str → Int
  | [], [] => 0
  | [], _ :: _ => -1
  | _ :: _, [] => 1
  | a :: as, b :: bs => if a < b then -1 else if b < a then 1 else strCmpI as bs

/-- The `Land` comparator of `sortCards`, including the
`a.landCategory ?? categorizeLand({... type_line: 'Land', oracle_text: '',
color_identity: []})` fallback. -/
def landCmpI (sets : LandSets) (a b : NormalizedCard) : Int :=
  let categoryA := a.landCategory.getD
    (categorizeLand sets ⟨a.name, "Land".data, a.cmc, none, [], []⟩)
  let categoryB := b.landCategory.getD
    (categorizeLand sets ⟨b.name, "Land".data, b.cmc, none, [], []⟩)
  let rankA := landCategoryRank categoryA
  let rankB := landCategoryRank categoryB
  if rankA ≠ rankB then (rankA : Int) - (rankB : Int)
  else if a.quantity ≠ b.quantity then (b.quantity : Int) - (a.quantity : Int)
  else strCmpI a.name b.name

/-- The `Sideboard` comparator of `sortCards`; `cards` is the whole group
being sorted, captured by the comparator closure in the source. -/
def sideCmpI (cards : List NormalizedCard) (a b : NormalizedCard) : Int :=
  let qtyA := getCombinedQuantity cards a
  let qtyB := getCombinedQuantity cards b
  if qtyA ≠ qtyB then (qtyB : Int) - (qtyA : Int)
  else
    let canonicalA := getCanonicalName a.name
    let canonicalB := getCanonicalName b.name
    if canonicalA ≠ canonicalB then strCmpI canonicalA canonicalB
    else if a.quantity ≠ b.quantity then (b.quantity : Int) - (a.quantity : Int)
    else strCmpI a.name b.name

/-- The main-deck comparator of `sortCards`: X-cost cards last, then `cmc`
ascending, then name. -/
def mainCmpI (a b : NormalizedCard) : Int :=
  let aHasX := includes (a.mana_cost.getD []) "X".data
  let bHasX := includes (b.mana_cost.getD []) "X".data
  if aHasX ≠ bHasX then (if aHasX then 1 else -1)
  else if a.cmc ≠ b.cmc then (a.cmc : Int) - (b.cmc : Int)
  else strCmpI a.name b.name

/-- `sortCards` (`src/app/utils/deck-normalizer.ts` lines 221-294).
`Array.prototype.sort` is a stable sort; with a consistent comparator `cmp`
its result is the unique stable reordering, which insertion sort over the
weak relation `cmp a b ≤ 0` computes. -/
def sortCards (sets : LandSets) (cards : List NormalizedCard) (s : Section) :
    List NormalizedCard :=
  if s == Section.land then
    List.insertionSort (fun a b => landCmpI sets a b ≤ 0) cards
  else if s == Section.sideboard then
    List.insertionSort (fun a b => sideCmpI cards a b ≤ 0) cards
  else
    List.insertionSort (fun a b => mainCmpI a b ≤ 0) cards

/-- `PRINT_ORDER`. -/
def PRINT_ORDER : List Section :=
  [.creature, .instant, .sorcery, .artifact, .enchantment, .land, .sideboard]

/-- `SECTION_LABEL`; `unknown` is not a key of the source record and is
unreachable from `printDeck`, whose `PRINT_ORDER` omits it. -/
def SECTION_LABEL : Section → Str
  | .creature => "Creatures".data
  | .instant => "Instants".data
  | .sorcery => "Sorceries".data
  | .artifact => "Artifacts".data
  | .enchantment => "Enchantment".data
  | .land => "Lands".data
  | .sideboard => "Sideboard".data
  | .unknown => []

/-- Little-endian decimal digits with explicit fuel (`fuel ≥ n` suffices). -/
def toDigitsRevFuel : Nat → Nat → List Nat
  | 0, _ => []
  | fuel + 1, n => if n = 0 then [] else n % 10 :: toDigitsRevFuel fuel (n / 10)

/-- Decimal rendering of a natural number, as produced by the template
literal `${c.quantity}`. -/
def natToStr (n : Nat) : Str :=
  if n = 0 then ['0']
  else ((toDigitsRevFuel n n).map (fun d => Char.ofNat (48 + d))).reverse

/-- `printDeck` (`src/app/utils/deck-normalizer.ts` lines 302-316): per
section, filter, sort, render `"<quantity> <name>"` lines under the label;
drop empty blocks; join with one blank line. -/
def printDeck (sets : LandSets) (cards : List NormalizedCard) : Str :=
  let blocks := PRINT_ORDER.map (fun s =>
    let group := cards.filter (fun c => c.«section» == s)
    if group.isEmpty then []
    else
      let sorted := sortCards sets group s
      let lines := sorted.map (fun c => natToStr c.quantity ++ ' ' :: c.name)
      SECTION_LABEL s ++ '\n' :: List.intercalate ['\n'] lines)
  List.intercalate "\n\n".data (blocks.filter (fun b => !b.isEmpty))

/-!
## Deck validator (`src/app/utils/deck-validator.ts` lines 1-116, the
`EXEMPT_LANDS` single-pass version cited by the claims)
-/

/-- `EXEMPT_LANDS`. -/
def EXEMPT_LANDS : List Str :=
  [ "Plains".data, "Island".data, "Swamp".data, "Mountain".data, "Forest".data
  , "Wastes".data
  , "Snow-Covered Plains".data, "Snow-Covered Island".data
  , "Snow-Covered Swamp".data, "Snow-Covered Mountain".data
  , "Snow-Covered Forest".data, "Snow-Covered Wastes".data ]

structure ValidationError where
  type : Str
  message : Str
deriving DecidableEq

namespace VALIDATION_MESSAGES

def mainDeckTooSmall (count : Nat) : ValidationError :=
  ⟨"error".data,
   "Main deck deve contenere almeno 60 carte (attuale: ".data
     ++ natToStr count ++ ")".data⟩

def mainDeckTooLarge (count : Nat) : ValidationError :=
  ⟨"warning".data,
   "Main deck contiene più di 60 carte (attuale: ".data
     ++ natToStr count ++ ").".data⟩

def sideboardTooSmall (count : Nat) : ValidationError :=
  ⟨"warning".data,
   "La Sideboard può contenere fino a 15 carte (attuale: ".data
     ++ natToStr count ++ ")".data⟩

def sideboardTooLarge (count : Nat) : ValidationError :=
  ⟨"error".data,
   "La Sideboard non può contenere più di 15 carte (attuale: ".data
     ++ natToStr count ++ ")".data⟩

def tooManyCopies (cardName : Str) (count : Nat) : ValidationError :=
  ⟨"error".data,
   '"' :: cardName
     ++ "\" supera il limite di 4 copie (attuale: ".data
     ++ natToStr count ++ ")".data⟩

end VALIDATION_MESSAGES

structure ValidationResult where
  isValid : Bool
  errors : List ValidationError
  warnings : List ValidationError
  mainDeckCount : Nat
  sideboardCount : Nat
  totalCards : Nat
deriving DecidableEq

/-- The single pass of `validatePauperDeck`: copy-limit errors in card order,
plus the two totals.  `cardCounts` is the `Map` of quantities seen so far,
modelled by its lookup function (absent keys give `0`, as `|| 0` does). -/
def validateLoop : List ParsedCard → (Str → Nat) → List ValidationError × Nat × Nat
  | [], _ => ([], 0, 0)
  | card :: rest, cardCounts =>
    let exempt := EXEMPT_LANDS.contains card.name
    let currentCount := cardCounts card.name + card.quantity
    let errsHere :=
      if exempt then []
      else if 4 < currentCount then [VALIDATION_MESSAGES.tooManyCopies card.name currentCount]
      else []
    let newCounts :=
      if exempt then cardCounts
      else fun n => if n == card.name then currentCount else cardCounts n
    let r := validateLoop rest newCounts
    (errsHere ++ r.1,
     (if card.isSideboard then r.2.1 else r.2.1 + card.quantity),
     (if card.isSideboard then r.2.2 + card.quantity else r.2.2))

/-- `validatePauperDeck` (`src/app/utils/deck-validator.ts` lines 58-116):
copy-limit errors from the pass, then the size rules in source order. -/
def validatePauperDeck (cards : List ParsedCard) : ValidationResult :=
  let r := validateLoop cards (fun _ => 0)
  let copyErrors := r.1
  let mainDeckCount := r.2.1
  let sideboardCount := r.2.2
  let sideboardFindings :=
    if 0 < sideboardCount ∧ sideboardCount ≠ 15 then
      (if sideboardCount < 15 then
        (([] : List ValidationError), [VALIDATION_MESSAGES.sideboardTooSmall sideboardCount])
      else
        ([VALIDATION_MESSAGES.sideboardTooLarge sideboardCount], ([] : List ValidationError)))
    else ([], [])
  let errors := copyErrors
    ++ (if mainDeckCount < 60 then [VALIDATION_MESSAGES.mainDeckTooSmall mainDeckCount] else [])
    ++ sideboardFindings.1
  let warnings :=
    (if 60 < mainDeckCount then [VALIDATION_MESSAGES.mainDeckTooLarge mainDeckCount] else [])
    ++ sideboardFindings.2
  ⟨errors.isEmpty, errors, warnings, mainDeckCount, sideboardCount,
   mainDeckCount + sideboardCount⟩

/-!
## Spec-side devices used to state the claims
-/

/-- A `LandSets` instance with empty curated sets, used to instantiate
set-parametric theorems on concrete inputs. -/
def emptyLandSets : LandSets :=
  ⟨fun _ => false, fun _ => false, fun _ => false, fun _ => false, fun _ => false,
   fun _ => false, fun _ => false, fun _ => false, fun _ => false⟩

/-- A card name exactly as the line parser can produce it: non-empty, equal to
its own trim, and free of line terminators. -/
def wfNameB (n : Str) : Bool :=
  !n.isEmpty && (trim n == n) && n.all (fun c => !isLineTerm c)

/-- The priority chain of the section classifier as spec §4.4 lists it. -/
def sectionChain : List (Str × Section) :=
  [ ("Creature".data, .creature), ("Land".data, .land), ("Instant".data, .instant)
  , ("Sorcery".data, .sorcery), ("Enchantment".data, .enchantment)
  , ("Artifact".data, .artifact) ]

/-- Claim C2 word for word: first match of the chain, fallback `Sorcery`. -/
def sectionSpecClaim (typeLine : Str) (isSideboard : Bool) : Section :=
  if isSideboard then .sideboard
  else ((sectionChain.find? (fun p => includes typeLine p.1)).map Prod.snd).getD .sorcery

/-- Claim C2 as amended: first match of the chain, fallback the out-of-union
value `Unknown`. -/
def sectionSpecAmended (typeLine : Str) (isSideboard : Bool) : Section :=
  if isSideboard then .sideboard
  else ((sectionChain.find? (fun p => includes typeLine p.1)).map Prod.snd).getD .unknown

/-- Total quantity of a name over the whole parsed list, main deck and
sideboard combined (claim C5). -/
def totalQuantity (cards : List ParsedCard) (n : Str) : Nat :=
  ((cards.filter (fun c => c.name == n)).map (fun c => c.quantity)).sum

/-- Running total of a name over the occurrences up to and including
index `i` (claim C5). -/
def runningTotal (cards : List ParsedCard) (i : Nat) (n : Str) : Nat :=
  totalQuantity (cards.take (i + 1)) n

/-- The copy-limit findings of the validator, characterised by prefix sums:
position `i` yields `(name, running total)` exactly when the name is not
exempt and the running total at `i` exceeds 4 (claim C5). -/
def copyFindings (cards : List ParsedCard) : List (Str × Nat) :=
  (List.range cards.length).filterMap (fun i =>
    if EXEMPT_LANDS.contains (cards.getD i ⟨0, [], false⟩).name then none
    else if 4 < runningTotal cards i (cards.getD i ⟨0, [], false⟩).name then
      some ((cards.getD i ⟨0, [], false⟩).name,
        runningTotal cards i (cards.getD i ⟨0, [], false⟩).name)
    else none)

/-- The copy-limit error (if any) contributed by position `i` of the pass,
with seed `counts` for the running totals (claims C4, C5). -/
def copyAt (counts : Str → Nat) (cards : List ParsedCard) (i : Nat) : Option ValidationError :=
  let c := cards.getD i ⟨0, [], false⟩
  if EXEMPT_LANDS.contains c.name then none
  else if 4 < counts c.name + runningTotal cards i c.name then
    some (VALIDATION_MESSAGES.tooManyCopies c.name
      (counts c.name + runningTotal cards i c.name))
  else none

/-- Copy-limit messages start with a quote character (claims C4, C5). -/
def isCopyMsg (e : ValidationError) : Bool :=
  e.message.head? == some '"'

/-- Discriminator for the main-deck-too-small error message (claim C4). -/
def isMainSmallMsg (e : ValidationError) : Bool :=
  "Main deck deve".data.isPrefixOf e.message

/-- Discriminator for the main-deck-too-large warning message (claim C4). -/
def isMainLargeMsg (e : ValidationError) : Bool :=
  "Main deck contiene".data.isPrefixOf e.message

/-- Discriminator for the sideboard-too-small warning message (claim C4). -/
def isSideSmallMsg (e : ValidationError) : Bool :=
  "La Sideboard può".data.isPrefixOf e.message

/-- Discriminator for the sideboard-too-large error message (claim C4). -/
def isSideLargeMsg (e : ValidationError) : Bool :=
  "La Sideboard non".data.isPrefixOf e.message

/-- Names of the parsed entries whose front-face key is absent from the
resolution index, in input order (claims C1, C10). -/
def missingNames (parsed : List ParsedCard) (scryfallIndex : ScryfallIndex) : List Str :=
  (parsed.filter (fun c => (scryfallIndex (getFrontFaceName c.name)).isNone)).map
    (fun c => c.name)

/-- The order claim C6 states for the Land section: land-category rank
ascending, then quantity descending, then name ascending. -/
def landClaimOrder (a b : NormalizedCard) : Prop :=
  let ra := landCategoryRank (a.landCategory.getD .other)
  let rb := landCategoryRank (b.landCategory.getD .other)
  ra < rb ∨ (ra = rb ∧
    (b.quantity < a.quantity ∨ (a.quantity = b.quantity ∧ strCmpI a.name b.name ≤ 0)))

/-- The rendered text of one card line, `"<quantity> <name>"` (claim C9). -/
def cardLine (c : NormalizedCard) : Str :=
  natToStr c.quantity ++ ' ' :: c.name

/-- One block of `printDeck` — the body of its `PRINT_ORDER.map` callback:
empty when the section has no cards, else the label line followed by the
rendered card lines (claim C9). -/
def sectionBlock (sets : LandSets) (cards : List NormalizedCard) (s : Section) : Str :=
  let group := cards.filter (fun c => c.«section» == s)
  if group.isEmpty then []
  else
    let sorted := sortCards sets group s
    let lines := sorted.map (fun c => natToStr c.quantity ++ ' ' :: c.name)
    SECTION_LABEL s ++ '\n' :: List.intercalate ['\n'] lines

/-- The (quantity, name) pairs the line loop emits, started outside the
sideboard (claim C9: the round trip is about this multiset). -/
def parsePairs (ls : List Str) : List (Nat × Str) :=
  (parseLoop false ls).map (fun p => (p.quantity, p.name))

/-!
## Helper lemmas
-/

theorem includes_nil_right (t : Str) : includes t [] = true := by
  cases t <;> rfl

theorem includes_cons_left {t m : Str} (c : Char) (h : includes t m = true) :
    includes (c :: t) m = true := by
  cases m with
  | nil => rfl
  | cons x m => simp [includes, h]

theorem isPrefixOf_append_self (m r : Str) : m.isPrefixOf (m ++ r) = true := by
  induction m with
  | nil => simp [List.isPrefixOf]
  | cons c m ih => simp [List.isPrefixOf, ih]

theorem includes_of_isPrefixOf {t m : Str} (h : m.isPrefixOf t = true) :
    includes t m = true := by
  cases m with
  | nil => exact includes_nil_right _
  | cons x m =>
    cases t with
    | nil => simp [List.isPrefixOf] at h
    | cons c rest =>
      show ((x :: m).isPrefixOf (c :: rest) || includes rest (x :: m)) = true
      simp [h]

theorem includes_append_middle (l m r : Str) : includes (l ++ m ++ r) m = true := by
  induction l with
  | nil => exact includes_of_isPrefixOf (isPrefixOf_append_self m r)
  | cons c l ih => exact includes_cons_left c ih

theorem head?_dropWhile {p : Char → Bool} {l : List Char} {c : Char}
    (h : (l.dropWhile p).head? = some c) : p c = false := by
  induction l with
  | nil => simp at h
  | cons x xs ih =>
    by_cases hx : p x
    · rw [List.dropWhile_cons, if_pos hx] at h
      exact ih h
    · rw [List.dropWhile_cons, if_neg hx] at h
      simp at h
      simp [h ▸ hx]

theorem getLast?_of_suffix {l₁ l₂ : List Char} (h : l₁ <:+ l₂) (hne : l₁ ≠ []) :
    l₂.getLast? = l₁.getLast? := by
  obtain ⟨pre, rfl⟩ := h
  rw [List.getLast?_append]
  cases hl : l₁.getLast? with
  | none => exact absurd (List.getLast?_eq_none_iff.mp hl) hne
  | some c => rfl

theorem trim_getLast_not_ws {s : Str} {c : Char} (h : (trim s).getLast? = some c) :
    isWs c = false := by
  unfold trim at h
  rw [List.getLast?_reverse] at h
  exact head?_dropWhile h

theorem trim_head_not_ws {s : Str} {c : Char} (h : (trim s).head? = some c) :
    isWs c = false := by
  unfold trim at h
  rw [List.head?_reverse] at h
  have hne : ((s.dropWhile isWs).reverse.dropWhile isWs) ≠ [] := by
    intro he
    rw [he] at h
    simp at h
  have hsuf := List.dropWhile_suffix (l := (s.dropWhile isWs).reverse) isWs
  have hx := getLast?_of_suffix hsuf hne
  rw [h, List.getLast?_reverse] at hx
  exact head?_dropWhile hx

theorem trim_eq_self {s : Str}
    (h1 : ∀ c, s.head? = some c → isWs c = false)
    (h2 : ∀ c, s.getLast? = some c → isWs c = false) : trim s = s := by
  have hfront : s.dropWhile isWs = s := by
    cases s with
    | nil => rfl
    | cons x xs =>
      rw [List.dropWhile_cons, if_neg]
      simp [h1 x rfl]
  unfold trim
  rw [hfront]
  have hback : s.reverse.dropWhile isWs = s.reverse := by
    cases hr : s.reverse with
    | nil => rfl
    | cons x xs =>
      rw [List.dropWhile_cons, if_neg]
      have : s.getLast? = some x := by
        rw [← List.head?_reverse, hr]
        rfl
      simp [h2 x this]
  rw [hback, List.reverse_reverse]

theorem matchCard_parts {t : Str} {q : Nat} {n : Str} (h : matchCard t = some (q, n)) :
    ∃ ds w, t = ds ++ w ++ n ∧ ds ≠ [] ∧ ds.all Char.isDigit = true ∧
      w ≠ [] ∧ w.all isWs = true ∧ n ≠ [] ∧ n.any isLineTerm = false ∧
      q = natOfDigits ds ∧ n = (t.dropWhile Char.isDigit).dropWhile isWs := by
  simp only [matchCard] at h
  split at h
  · exact absurd h (by simp)
  · rename_i hc
    have hc4 : (t.takeWhile Char.isDigit).isEmpty = false ∧
        ((t.dropWhile Char.isDigit).takeWhile isWs).isEmpty = false ∧
        ((t.dropWhile Char.isDigit).dropWhile isWs).isEmpty = false ∧
        ((t.dropWhile Char.isDigit).dropWhile isWs).any isLineTerm = false := by
      simp only [Bool.or_eq_true, not_or, Bool.not_eq_true] at hc
      exact ⟨hc.1.1.1, hc.1.1.2, hc.1.2, hc.2⟩
    obtain ⟨hds, hw, hrest, hterm⟩ := hc4
    rw [Option.some.injEq, Prod.mk.injEq] at h
    obtain ⟨hq, hn⟩ := h
    refine ⟨t.takeWhile Char.isDigit, (t.dropWhile Char.isDigit).takeWhile isWs,
      ?_, ?_, ?_, ?_, ?_, ?_, ?_, ?_, ?_⟩
    · rw [← hn, List.append_assoc, List.takeWhile_append_dropWhile,
        List.takeWhile_append_dropWhile]
    · simpa using hds
    · simp only [List.all_eq_true]
      exact fun x hx => List.mem_takeWhile_imp hx
    · simpa using hw
    · simp only [List.all_eq_true]
      exact fun x hx => List.mem_takeWhile_imp hx
    · rw [← hn]
      simpa using hrest
    · rw [← hn]
      exact hterm
    · exact hq.symm
    · exact hn.symm

theorem wfNameB_iff {n : Str} : wfNameB n = true ↔
    n ≠ [] ∧ trim n = n ∧ ∀ c ∈ n, isLineTerm c = false := by
  simp [wfNameB, List.all_eq_true, List.isEmpty_iff, and_assoc]

theorem matchCard_wfName {l : Str} {q : Nat} {n : Str}
    (h : matchCard (trim l) = some (q, n)) : wfNameB n = true := by
  obtain ⟨ds, w, ht, _, _, _, _, hn, hterm, _, hrest⟩ := matchCard_parts h
  rw [wfNameB_iff]
  refine ⟨hn, ?_, ?_⟩
  · apply trim_eq_self
    · intro c hc
      rw [hrest] at hc
      exact head?_dropWhile hc
    · intro c hc
      have hsuf : n <:+ trim l := ⟨ds ++ w, ht.symm⟩
      have hx := getLast?_of_suffix hsuf hn
      rw [hc] at hx
      exact trim_getLast_not_ws hx
  · intro c hc
    exact Bool.not_eq_true _ ▸ (List.any_eq_false.mp hterm c hc)

theorem mem_parseLoop {c : ParsedCard} : ∀ {sb : Bool} {ls : List Str},
    c ∈ parseLoop sb ls → ∃ l ∈ ls, matchCard (trim l) = some (c.quantity, c.name) := by
  intro sb ls
  induction ls generalizing sb with
  | nil => intro h; simp [parseLoop] at h
  | cons l ls ih =>
    intro h
    simp only [parseLoop] at h
    split at h
    · obtain ⟨l', hl', hm⟩ := ih h
      exact ⟨l', List.mem_cons_of_mem _ hl', hm⟩
    · split at h
      · obtain ⟨l', hl', hm⟩ := ih h
        exact ⟨l', List.mem_cons_of_mem _ hl', hm⟩
      · split at h
        · rename_i qn hqn
          rcases List.mem_cons.mp h with rfl | hmem
          · exact ⟨l, List.mem_cons_self _ _, hqn⟩
          · obtain ⟨l', hl', hm⟩ := ih hmem
            exact ⟨l', List.mem_cons_of_mem _ hl', hm⟩
        · obtain ⟨l', hl', hm⟩ := ih h
          exact ⟨l', List.mem_cons_of_mem _ hl', hm⟩

theorem toLower_of_isDigit {c : Char} (h : c.isDigit = true) : Char.toLower c = c := by
  have h1 := (Bool.and_eq_true _ _).mp h
  have h57 : c.val ≤ (57 : UInt32) := of_decide_eq_true h1.2
  unfold Char.toLower
  rw [if_neg]
  intro hcon
  obtain ⟨h65, _⟩ := hcon
  have : c.toNat ≤ 57 := by
    have := UInt32.le_def.mp h57
    simpa [Char.toNat] using this
  omega

theorem toNat_le_of_isDigit {c : Char} (h : c.isDigit = true) : c.toNat ≤ 57 := by
  have h1 := (Bool.and_eq_true _ _).mp h
  have h57 : c.val ≤ (57 : UInt32) := of_decide_eq_true h1.2
  have := UInt32.le_def.mp h57
  simpa [Char.toNat] using this

/-- A line whose first character is a digit is not a sideboard marker. -/
theorem isSideboardLine_of_digit_head {d : Char} {rest : Str} (hd : d.isDigit = true) :
    isSideboardLine (d :: rest) = false := by
  have hne : Char.toLower d ≠ 's' := by
    intro he
    have := toNat_le_of_isDigit hd
    rw [toLower_of_isDigit hd] at he
    rw [he] at this
    exact absurd this (by decide)
  unfold isSideboardLine
  rw [Bool.or_eq_false_iff]
  constructor
  · rw [beq_eq_false_iff_ne]
    intro he
    simp only [List.map_cons] at he
    exact hne (List.cons.inj he).1
  · rw [beq_eq_false_iff_ne]
    intro he
    simp only [List.map_cons] at he
    exact hne (List.cons.inj he).1

/-- The step of `parseLoop` on a line whose trim matches the card pattern. -/
theorem parseLoop_card_step {sb : Bool} {l : Str} {ls : List Str} {q : Nat} {n : Str}
    (h : matchCard (trim l) = some (q, n)) :
    parseLoop sb (l :: ls) = ⟨q, n, sb⟩ :: parseLoop sb ls := by
  obtain ⟨ds, w, ht, hds, hdsall, _, _, _, _, _, _⟩ := matchCard_parts h
  cases hd : ds with
  | nil => exact absurd hd hds
  | cons d ds' =>
    have hdig : d.isDigit = true := by
      refine List.all_eq_true.mp hdsall d ?_
      rw [hd]; exact List.mem_cons_self _ _
    have hne : (trim l).isEmpty = false := by
      rw [ht, hd]; rfl
    have hmark : isSideboardLine (trim l) = false := by
      rw [ht, hd]
      exact isSideboardLine_of_digit_head hdig
    simp only [parseLoop, hne, hmark, h, Bool.false_eq_true, if_false]

/-!
## Claim C2 — section classifier priority chain
-/

/-- C2 counterexample: on the empty type line (which contains none of the six
keywords) with the sideboard flag unset, `sectionFromTypeLine` does not return
the `Sorcery` fallback the claim states (it returns the out-of-union
`Unknown`). -/
theorem C2_counterexample :
    sectionFromTypeLine [] false ≠ sectionSpecClaim [] false ∧
    sectionFromTypeLine [] false = Section.unknown := by decide

/-- C2 (amended): the section classifier returns the first match of the
priority chain Sideboard → Creature → Land → Instant → Sorcery → Enchantment
→ Artifact, and when the type line contains none of the six keywords it
returns the out-of-union value `Unknown` (not `Sorcery`). -/
theorem C2_amended_theorem : ∀ (typeLine : Str) (isSideboard : Bool),
    sectionFromTypeLine typeLine isSideboard = sectionSpecAmended typeLine isSideboard := by
  intro tl sb
  cases sb with
  | true => rfl
  | false =>
    simp only [sectionFromTypeLine, sectionSpecAmended, sectionChain, List.find?_cons]
    repeat' split
    all_goals simp_all

/-!
## Claim C8 — auto-accept decision
-/

/-- C8 counterexample: the whitelist (the configured map of `part_003`) has no
entry for the searched name `Foo`, yet `shouldAutoApply` accepts the pair
(`Foo`, `Lórien Revealed`), because it tests only whether the suggested name is
in the whitelist set. -/
theorem C8_counterexample :
    WhitelistMap.getAutocorrectName "Foo".data = none ∧
    shouldAutoApply "Foo".data "Lórien Revealed".data = true := by decide

/-- C8 (amended): `shouldAutoApply` returns `true` exactly when the suggested
name belongs to the fixed whitelist set of canonical names, regardless of the
searched name; pairs whose suggested name is outside the set are left for
manual review. -/
theorem C8_amended_theorem : ∀ searchedName suggestedName : Str,
    shouldAutoApply searchedName suggestedName = true ↔
      suggestedName ∈ AUTOCORRECT_WHITELIST := by
  intro s n
  simp [shouldAutoApply, List.contains, List.elem_iff]

/-!
## Claim C7 — shape of parsed cards
-/

/-- C7 counterexample: the line `0 Island` matches `^(\d+)\s+(.+)$` and is
emitted with quantity `0`, so parsed quantities are not always `≥ 1`. -/
theorem C7_counterexample :
    parseRawDeck "0 Island".data = [⟨0, "Island".data, false⟩] ∧
    ¬ (∀ c ∈ parseRawDeck "0 Island".data, 1 ≤ c.quantity) := by decide

/-- C7 (amended): every parsed card has a non-empty name equal to its own
trim; a line whose trimmed text matches `^(\d+)\s+(.+)$` splits into a
non-empty digit run, a non-empty whitespace run and the non-empty remainder,
and emits exactly one ParsedCard whose quantity is the numeric value of the
digit run (which is `0` when the digits are all zeros, so `≥ 1` does not
hold) and whose name is the remainder. -/
theorem C7_amended_theorem :
    (∀ (text : Str) (c : ParsedCard), c ∈ parseRawDeck text →
        c.name ≠ [] ∧ trim c.name = c.name) ∧
    (∀ (t : Str) (q : Nat) (n : Str), matchCard t = some (q, n) →
        ∃ ds w, t = ds ++ w ++ n ∧ ds ≠ [] ∧ ds.all Char.isDigit = true ∧
          w ≠ [] ∧ w.all isWs = true ∧ n ≠ [] ∧ q = natOfDigits ds) ∧
    (∀ (sb : Bool) (l : Str) (ls : List Str) (q : Nat) (n : Str),
        matchCard (trim l) = some (q, n) →
        parseLoop sb (l :: ls) = ⟨q, n, sb⟩ :: parseLoop sb ls) := by
  refine ⟨?_, ?_, ?_⟩
  · intro text c hc
    obtain ⟨l, _, hm⟩ := mem_parseLoop hc
    have hw := matchCard_wfName hm
    rw [wfNameB_iff] at hw
    exact ⟨hw.1, hw.2.1⟩
  · intro t q n h
    obtain ⟨ds, w, h1, h2, h3, h4, h5, h6, _, h8, _⟩ := matchCard_parts h
    exact ⟨ds, w, h1, h2, h3, h4, h5, h6, h8⟩
  · intro sb l ls q n h
    exact parseLoop_card_step h

/-- C7 witness: the theorem applied to the concrete line `3 Apple`. -/
theorem C7_witness :
    parseLoop false ["3 Apple".data] = [⟨3, "Apple".data, false⟩] := by
  have h := C7_amended_theorem.2.2 false "3 Apple".data [] 3 "Apple".data (by decide)
  simpa [parseLoop] using h

/-!
## Claim C3 — line-by-line behaviour of the parser
-/

theorem markerBefore_zero (ls : List Str) : markerBefore ls 0 = false := rfl

theorem markerBefore_succ (l : Str) (ls : List Str) (i : Nat) :
    markerBefore (l :: ls) (i + 1) = (isSideboardLine (trim l) || markerBefore ls i) := by
  unfold markerBefore
  rw [List.take_succ_cons, List.any_cons]

theorem isSideboardLine_nil : isSideboardLine [] = false := rfl

/-- Closed form of the parser loop: line `i` contributes `lineEmission` of the
line, under the flag "state at entry or some earlier line is a marker". -/
theorem parseLoop_emission : ∀ (ls : List Str) (sb : Bool),
    parseLoop sb ls = (List.range ls.length).flatMap
      (fun i => lineEmission (ls.getD i []) (sb || markerBefore ls i)) := by
  intro ls
  induction ls with
  | nil => intro sb; rfl
  | cons l ls ih =>
    intro sb
    rw [List.length_cons, List.range_succ_eq_map, List.flatMap_cons, List.flatMap_map]
    have htail : ∀ i, lineEmission ((l :: ls).getD (Nat.succ i) [])
          (sb || markerBefore (l :: ls) (Nat.succ i))
        = lineEmission (ls.getD i [])
          ((sb || isSideboardLine (trim l)) || markerBefore ls i) := by
      intro i
      rw [List.getD_cons_succ, markerBefore_succ]
      congr 1
      cases sb <;> cases isSideboardLine (trim l) <;> cases markerBefore ls i <;> rfl
    simp only [htail, List.getD_cons_zero, markerBefore_zero, Bool.or_false]
    by_cases hb : (trim l).isEmpty
    · have hmf : isSideboardLine (trim l) = false := by
        rw [List.isEmpty_iff.mp hb]
        rfl
      have hle : lineEmission l sb = [] := by
        simp [lineEmission, hb]
      rw [hmf, Bool.or_false, hle, List.nil_append, ← ih sb]
      simp [parseLoop, hb]
    · by_cases hm : isSideboardLine (trim l)
      · have hle : lineEmission l sb = [] := by
          simp [lineEmission, hb, hm]
        rw [hm, Bool.or_true, hle, List.nil_append, ← ih true]
        simp [parseLoop, hb, hm]
      · have hmf : isSideboardLine (trim l) = false := by
          simpa using hm
        rw [hmf, Bool.or_false]
        cases hmc : matchCard (trim l) with
        | none =>
          have hle : lineEmission l sb = [] := by
            simp [lineEmission, hb, hmf, hmc]
          rw [hle, List.nil_append, ← ih sb]
          simp [parseLoop, hb, hmf, hmc]
        | some qn =>
          have hle : lineEmission l sb = [⟨qn.1, qn.2, sb⟩] := by
            simp [lineEmission, hb, hmf, hmc]
          rw [hle, ← ih sb]
          simp [parseLoop, hb, hmf, hmc]

/-- C3: `parseRawDeck` processes the trimmed, newline-split lines in input
order; line `i` contributes nothing if blank, unmatched, or a sideboard
marker, and exactly one card otherwise, whose `isSideboard` flag is set
exactly when some earlier line is a `^sideboard:?$` marker (so the flag is
never unset); the parser is a total function, so it never throws. -/
theorem C3_theorem : ∀ text : Str,
    parseRawDeck text =
      (List.range ((trim text).splitOn '\n').length).flatMap
        (fun i => lineEmission (((trim text).splitOn '\n').getD i [])
          (markerBefore ((trim text).splitOn '\n') i)) := by
  intro text
  rw [parseRawDeck, parseLoop_emission]
  simp only [Bool.false_or]

/-!
## Claims C1 and C10 — normalization: missing-card aggregation and framing
-/

theorem normalizeLoop_fst (sets : LandSets) (scryfallIndex : ScryfallIndex) :
    ∀ parsed, (normalizeLoop sets scryfallIndex parsed).1 = missingNames parsed scryfallIndex := by
  intro parsed
  induction parsed with
  | nil => rfl
  | cons c rest ih =>
    simp only [normalizeLoop]
    cases hidx : scryfallIndex (getFrontFaceName c.name) with
    | none =>
      simp only [missingNames, List.filter_cons, hidx, Option.isNone_none, if_pos,
        List.map_cons]
      exact congrArg (List.cons c.name) ih
    | some s =>
      simp only [missingNames, List.filter_cons, hidx, Option.isNone_some,
        Bool.false_eq_true, if_false]
      exact ih

theorem normalizeLoop_triples (sets : LandSets) (scryfallIndex : ScryfallIndex) :
    ∀ parsed, (∀ c ∈ parsed, (scryfallIndex (getFrontFaceName c.name)).isSome = true) →
      (normalizeLoop sets scryfallIndex parsed).2.map
          (fun nc => (nc.quantity, nc.name, nc.isSideboard))
        = parsed.map (fun c => (c.quantity, c.name, c.isSideboard)) := by
  intro parsed
  induction parsed with
  | nil => intro _; rfl
  | cons c rest ih =>
    intro h
    have hc := h c (List.mem_cons_self _ _)
    simp only [normalizeLoop]
    cases hidx : scryfallIndex (getFrontFaceName c.name) with
    | none => rw [hidx] at hc; simp at hc
    | some s =>
      simp only [List.map_cons]
      rw [ih (fun d hd => h d (List.mem_cons_of_mem _ hd))]

theorem mem_intercalate_parts {sep : Str} {ms : List Str} {n : Str} (h : n ∈ ms) :
    ∃ l r, List.intercalate sep ms = l ++ n ++ r := by
  induction ms with
  | nil => cases h
  | cons m ms ih =>
    rcases List.mem_cons.mp h with rfl | hmem
    · cases ms with
      | nil => exact ⟨[], [], by simp [List.intercalate]⟩
      | cons y ys =>
        refine ⟨[], sep ++ List.intercalate sep (y :: ys), ?_⟩
        simp [List.intercalate, List.intersperse]
    · obtain ⟨l, r, hlr⟩ := ih hmem
      cases ms with
      | nil => cases hmem
      | cons y ys =>
        refine ⟨m ++ sep ++ l, r, ?_⟩
        have : List.intercalate sep (m :: y :: ys)
            = m ++ sep ++ List.intercalate sep (y :: ys) := by
          simp [List.intercalate, List.intersperse]
        rw [this, hlr]
        simp [List.append_assoc]

theorem includes_missingMsg {ms : List Str} {n : Str} (h : n ∈ ms) :
    includes (missingMsg ms) n = true := by
  obtain ⟨l, r, hlr⟩ := @mem_intercalate_parts (", ".data) _ _ h
  unfold missingMsg
  rw [hlr, ← List.append_assoc, ← List.append_assoc]
  exact includes_append_middle ("Missing Scryfall data for: ".data ++ l) n r

theorem missingNames_eq_nil {parsed : List ParsedCard} {scryfallIndex : ScryfallIndex}
    (h : ∀ c ∈ parsed, (scryfallIndex (getFrontFaceName c.name)).isSome = true) :
    missingNames parsed scryfallIndex = [] := by
  unfold missingNames
  rw [List.map_eq_nil_iff, List.filter_eq_nil_iff]
  intro c hc
  have := h c hc
  simp [Option.isNone_iff_eq_none]
  intro he
  rw [he] at this
  simp at this

/-- C1: for every parsed list and resolution index, if some entry's front-face
name is absent from the index then `normalizeDeckWithIndex` produces a single
error (no partial output) whose message enumerates every missing entry's name;
if nothing is missing it returns one NormalizedCard per entry. -/
theorem C1_theorem : ∀ (sets : LandSets) (parsed : List ParsedCard)
    (scryfallIndex : ScryfallIndex),
    (missingNames parsed scryfallIndex ≠ [] →
      normalizeDeckWithIndex sets parsed scryfallIndex
          = .error (missingMsg (missingNames parsed scryfallIndex)) ∧
      ∀ n ∈ missingNames parsed scryfallIndex,
        includes (missingMsg (missingNames parsed scryfallIndex)) n = true) ∧
    (missingNames parsed scryfallIndex = [] →
      ∃ out, normalizeDeckWithIndex sets parsed scryfallIndex = .ok out ∧
        out.length = parsed.length) := by
  intro sets parsed idx
  constructor
  · intro hne
    constructor
    · simp only [normalizeDeckWithIndex]
      rw [normalizeLoop_fst]
      rw [if_neg]
      simp [List.isEmpty_iff, hne]
    · intro n hn
      exact includes_missingMsg hn
  · intro hnil
    refine ⟨(normalizeLoop sets idx parsed).2, ?_, ?_⟩
    · simp only [normalizeDeckWithIndex]
      rw [normalizeLoop_fst, hnil]
      rfl
    · have h : ∀ c ∈ parsed, (idx (getFrontFaceName c.name)).isSome = true := by
        intro c hc
        by_contra hcon
        have hnone : (idx (getFrontFaceName c.name)).isNone = true := by
          cases hx : idx (getFrontFaceName c.name) with
          | none => rfl
          | some v => rw [hx] at hcon; simp at hcon
        have : c.name ∈ missingNames parsed idx := by
          unfold missingNames
          exact List.mem_map_of_mem _ (List.mem_filter.mpr ⟨hc, hnone⟩)
        rw [hnil] at this
        cases this
      have := normalizeLoop_triples sets idx parsed h
      have hlen := congrArg List.length this
      simpa using hlen

/-- C1 witness: two unresolvable names produce the single aggregated error and
both names occur in its message. -/
theorem C1_witness :
    missingNames [⟨4, "Aa".data, false⟩, ⟨2, "Bb".data, false⟩]
        (fun _ => none) ≠ [] ∧
    (normalizeDeckWithIndex emptyLandSets [⟨4, "Aa".data, false⟩, ⟨2, "Bb".data, false⟩]
        (fun _ => none)
        = .error (missingMsg (missingNames [⟨4, "Aa".data, false⟩, ⟨2, "Bb".data, false⟩]
            (fun _ => none))) ∧
      ∀ n ∈ missingNames [⟨4, "Aa".data, false⟩, ⟨2, "Bb".data, false⟩] (fun _ => none),
        includes (missingMsg (missingNames [⟨4, "Aa".data, false⟩, ⟨2, "Bb".data, false⟩]
            (fun _ => none))) n = true) :=
  ⟨by decide,
   (C1_theorem emptyLandSets [⟨4, "Aa".data, false⟩, ⟨2, "Bb".data, false⟩]
      (fun _ => none)).1 (by decide)⟩

/-- C10: when every front-face name resolves, `normalizeDeckWithIndex` returns
exactly one NormalizedCard per input entry, in input order, preserving
quantity, name and the sideboard flag. -/
theorem C10_theorem : ∀ (sets : LandSets) (parsed : List ParsedCard)
    (scryfallIndex : ScryfallIndex),
    (∀ c ∈ parsed, (scryfallIndex (getFrontFaceName c.name)).isSome = true) →
    ∃ out, normalizeDeckWithIndex sets parsed scryfallIndex = .ok out ∧
      out.map (fun nc => (nc.quantity, nc.name, nc.isSideboard))
        = parsed.map (fun c => (c.quantity, c.name, c.isSideboard)) := by
  intro sets parsed idx h
  refine ⟨(normalizeLoop sets idx parsed).2, ?_, normalizeLoop_triples sets idx parsed h⟩
  simp only [normalizeDeckWithIndex]
  rw [normalizeLoop_fst, missingNames_eq_nil h]
  rfl

/-!
## Claims C4 and C5 — deck validator
-/

theorem validateLoop_main : ∀ (cards : List ParsedCard) (counts : Str → Nat),
    (validateLoop cards counts).2.1
      = ((cards.filter (fun c => !c.isSideboard)).map (fun c => c.quantity)).sum := by
  intro cards
  induction cards with
  | nil => intro counts; rfl
  | cons c rest ih =>
    intro counts
    simp only [validateLoop, List.filter_cons]
    cases hsb : c.isSideboard <;>
      simp [hsb, ih, List.sum_cons, Nat.add_comm]

theorem validateLoop_side : ∀ (cards : List ParsedCard) (counts : Str → Nat),
    (validateLoop cards counts).2.2
      = ((cards.filter (fun c => c.isSideboard)).map (fun c => c.quantity)).sum := by
  intro cards
  induction cards with
  | nil => intro counts; rfl
  | cons c rest ih =>
    intro counts
    simp only [validateLoop, List.filter_cons]
    cases hsb : c.isSideboard <;>
      simp [hsb, ih, List.sum_cons, Nat.add_comm]

theorem validateLoop_copy_shape : ∀ (cards : List ParsedCard) (counts : Str → Nat)
    (e : ValidationError), e ∈ (validateLoop cards counts).1 →
    ∃ n k, e = VALIDATION_MESSAGES.tooManyCopies n k := by
  intro cards
  induction cards with
  | nil => intro counts e he; simp [validateLoop] at he
  | cons c rest ih =>
    intro counts e he
    simp only [validateLoop, List.mem_append] at he
    rcases he with he | he
    · by_cases hex : EXEMPT_LANDS.contains c.name
      · rw [if_pos hex] at he
        cases he
      · rw [if_neg hex] at he
        by_cases hrun : 4 < counts c.name + c.quantity
        · rw [if_pos hrun] at he
          rcases List.mem_singleton.mp he with rfl
          exact ⟨c.name, counts c.name + c.quantity, rfl⟩
        · rw [if_neg hrun] at he
          cases he
    · exact ih _ e he

theorem runningTotal_cons (c : ParsedCard) (rest : List ParsedCard) (i : Nat) (n : Str) :
    runningTotal (c :: rest) (i + 1) n
      = (if c.name = n then c.quantity else 0) + runningTotal rest i n := by
  unfold runningTotal totalQuantity
  rw [List.take_succ_cons, List.filter_cons]
  by_cases h : c.name = n
  · simp [h]
  · simp [h]

theorem runningTotal_zero (c : ParsedCard) (rest : List ParsedCard) (n : Str) :
    runningTotal (c :: rest) 0 n = if c.name = n then c.quantity else 0 := by
  unfold runningTotal totalQuantity
  rw [List.take_succ_cons, List.take_zero, List.filter_cons]
  by_cases h : c.name = n
  · simp [h]
  · simp [h]

/-- Exempt head: position `i + 1` of `c :: rest` behaves like position `i` of
`rest` with the same seed. -/
theorem copyAt_succ_exempt {c : ParsedCard} {counts : Str → Nat}
    (rest : List ParsedCard) (i : Nat)
    (hex : EXEMPT_LANDS.contains c.name = true) :
    copyAt counts (c :: rest) (i + 1) = copyAt counts rest i := by
  unfold copyAt
  simp only [List.getD_cons_succ, runningTotal_cons]
  by_cases hname : c.name = (rest.getD i ⟨0, [], false⟩).name
  · rw [if_pos (hname ▸ hex), if_pos (hname ▸ hex)]
  · rw [if_neg hname, Nat.zero_add]

/-- Non-exempt head: position `i + 1` of `c :: rest` behaves like position `i`
of `rest` with the seed bumped at the head name. -/
theorem copyAt_succ_update {c : ParsedCard} {counts : Str → Nat}
    (rest : List ParsedCard) (i : Nat) :
    copyAt counts (c :: rest) (i + 1)
      = copyAt (fun n => if n == c.name then counts c.name + c.quantity else counts n)
          rest i := by
  unfold copyAt
  simp only [List.getD_cons_succ, runningTotal_cons]
  by_cases hname : c.name = (rest.getD i ⟨0, [], false⟩).name
  · have hupd : (if (rest.getD i ⟨0, [], false⟩).name == c.name
        then counts c.name + c.quantity
        else counts (rest.getD i ⟨0, [], false⟩).name) = counts c.name + c.quantity := by
      rw [if_pos (beq_iff_eq.mpr hname.symm)]
    simp only [hupd]
    rw [if_pos hname, ← hname]
    have harith : counts c.name + (c.quantity + runningTotal rest i c.name)
        = counts c.name + c.quantity + runningTotal rest i c.name := by omega
    rw [harith]
  · have hupd : (if (rest.getD i ⟨0, [], false⟩).name == c.name
        then counts c.name + c.quantity
        else counts (rest.getD i ⟨0, [], false⟩).name)
        = counts (rest.getD i ⟨0, [], false⟩).name := by
      rw [if_neg]
      simp only [beq_iff_eq]
      exact fun he => hname he.symm
    simp only [hupd]
    rw [if_neg hname, Nat.zero_add]

/-- Prefix-sum characterisation of the copy-limit pass: position `i` yields an
error exactly when the name is not exempt and the running total (seed plus
quantities of occurrences up to `i`) exceeds 4. -/
theorem validateLoop_fst_char : ∀ (cards : List ParsedCard) (counts : Str → Nat),
    (validateLoop cards counts).1
      = (List.range cards.length).filterMap (copyAt counts cards) := by
  intro cards
  induction cards with
  | nil => intro counts; rfl
  | cons c rest ih =>
    intro counts
    rw [List.length_cons, List.range_succ_eq_map]
    by_cases hex : EXEMPT_LANDS.contains c.name
    · have hhead : copyAt counts (c :: rest) 0 = none := by
        unfold copyAt
        simp only [List.getD_cons_zero]
        rw [if_pos hex]
      rw [List.filterMap_cons_none hhead, List.filterMap_map]
      have hcomp : (copyAt counts (c :: rest)) ∘ Nat.succ
          = fun i => copyAt counts rest i := by
        funext i
        exact copyAt_succ_exempt rest i hex
      rw [hcomp]
      have hloop : (validateLoop (c :: rest) counts).1
          = (validateLoop rest counts).1 := by
        simp only [validateLoop, hex, if_true, List.nil_append]
      rw [hloop, ih counts]
    · have hrun0 : runningTotal (c :: rest) 0 c.name = c.quantity := by
        rw [runningTotal_zero, if_pos rfl]
      by_cases hbig : 4 < counts c.name + c.quantity
      · have hhead : copyAt counts (c :: rest) 0
            = some (VALIDATION_MESSAGES.tooManyCopies c.name
                (counts c.name + c.quantity)) := by
          unfold copyAt
          simp only [List.getD_cons_zero, hrun0]
          rw [if_neg hex, if_pos hbig]
        rw [List.filterMap_cons_some hhead, List.filterMap_map]
        have hcomp : (copyAt counts (c :: rest)) ∘ Nat.succ
            = fun i => copyAt
                (fun n => if n == c.name then counts c.name + c.quantity else counts n)
                rest i := by
          funext i
          exact copyAt_succ_update rest i
        rw [hcomp]
        have hloop : (validateLoop (c :: rest) counts).1
            = VALIDATION_MESSAGES.tooManyCopies c.name (counts c.name + c.quantity)
              :: (validateLoop rest
                  (fun n => if n == c.name then counts c.name + c.quantity else counts n)).1 := by
          simp only [validateLoop, hex, hbig, if_true, if_false, Bool.false_eq_true,
            List.cons_append, List.nil_append]
        rw [hloop, ih]
      · have hhead : copyAt counts (c :: rest) 0 = none := by
          unfold copyAt
          simp only [List.getD_cons_zero, hrun0]
          rw [if_neg hex, if_neg hbig]
        rw [List.filterMap_cons_none hhead, List.filterMap_map]
        have hcomp : (copyAt counts (c :: rest)) ∘ Nat.succ
            = fun i => copyAt
                (fun n => if n == c.name then counts c.name + c.quantity else counts n)
                rest i := by
          funext i
          exact copyAt_succ_update rest i
        rw [hcomp]
        have hloop : (validateLoop (c :: rest) counts).1
            = (validateLoop rest
                (fun n => if n == c.name then counts c.name + c.quantity else counts n)).1 := by
          simp only [validateLoop, hex, hbig, if_false, Bool.false_eq_true,
            List.nil_append]
        rw [hloop, ih]

theorem isMainSmallMsg_small (n : Nat) :
    isMainSmallMsg (VALIDATION_MESSAGES.mainDeckTooSmall n) = true := rfl

theorem isMainSmallMsg_sideLarge (n : Nat) :
    isMainSmallMsg (VALIDATION_MESSAGES.sideboardTooLarge n) = false := rfl

theorem isMainSmallMsg_copy (n : Str) (k : Nat) :
    isMainSmallMsg (VALIDATION_MESSAGES.tooManyCopies n k) = false := rfl

theorem isMainLargeMsg_large (n : Nat) :
    isMainLargeMsg (VALIDATION_MESSAGES.mainDeckTooLarge n) = true := rfl

theorem isMainLargeMsg_sideSmall (n : Nat) :
    isMainLargeMsg (VALIDATION_MESSAGES.sideboardTooSmall n) = false := rfl

theorem isSideSmallMsg_small (n : Nat) :
    isSideSmallMsg (VALIDATION_MESSAGES.sideboardTooSmall n) = true := rfl

theorem isSideSmallMsg_mainLarge (n : Nat) :
    isSideSmallMsg (VALIDATION_MESSAGES.mainDeckTooLarge n) = false := rfl

theorem isSideLargeMsg_large (n : Nat) :
    isSideLargeMsg (VALIDATION_MESSAGES.sideboardTooLarge n) = true := rfl

theorem isSideLargeMsg_mainSmall (n : Nat) :
    isSideLargeMsg (VALIDATION_MESSAGES.mainDeckTooSmall n) = false := rfl

theorem isSideLargeMsg_copy (n : Str) (k : Nat) :
    isSideLargeMsg (VALIDATION_MESSAGES.tooManyCopies n k) = false := rfl

theorem isCopyMsg_copy (n : Str) (k : Nat) :
    isCopyMsg (VALIDATION_MESSAGES.tooManyCopies n k) = true := rfl

theorem isCopyMsg_mainSmall (n : Nat) :
    isCopyMsg (VALIDATION_MESSAGES.mainDeckTooSmall n) = false := rfl

theorem isCopyMsg_sideLarge (n : Nat) :
    isCopyMsg (VALIDATION_MESSAGES.sideboardTooLarge n) = false := rfl

theorem copy_countP_mainSmall (cards : List ParsedCard) (counts : Str → Nat) :
    (validateLoop cards counts).1.countP isMainSmallMsg = 0 := by
  rw [List.countP_eq_zero]
  intro e he
  obtain ⟨n, k, rfl⟩ := validateLoop_copy_shape cards counts e he
  simp [isMainSmallMsg_copy]

theorem copy_countP_sideLarge (cards : List ParsedCard) (counts : Str → Nat) :
    (validateLoop cards counts).1.countP isSideLargeMsg = 0 := by
  rw [List.countP_eq_zero]
  intro e he
  obtain ⟨n, k, rfl⟩ := validateLoop_copy_shape cards counts e he
  simp [isSideLargeMsg_copy]

/-- C4: the validator computes main and sideboard totals as sums of
quantities, emits exactly one main-deck-size error iff the main count is
below 60, exactly one main-deck-size warning iff it is above 60, exactly one
sideboard warning iff the sideboard count is strictly between 0 and 15,
exactly one sideboard error iff it exceeds 15, and reports validity exactly
when the error list is empty; as a total function it never throws. -/
theorem C4_theorem : ∀ cards : List ParsedCard,
    ((validatePauperDeck cards).mainDeckCount
        = ((cards.filter (fun c => !c.isSideboard)).map (fun c => c.quantity)).sum) ∧
    ((validatePauperDeck cards).sideboardCount
        = ((cards.filter (fun c => c.isSideboard)).map (fun c => c.quantity)).sum) ∧
    ((validatePauperDeck cards).errors.countP isMainSmallMsg
        = if (validatePauperDeck cards).mainDeckCount < 60 then 1 else 0) ∧
    ((validatePauperDeck cards).warnings.countP isMainLargeMsg
        = if 60 < (validatePauperDeck cards).mainDeckCount then 1 else 0) ∧
    ((validatePauperDeck cards).warnings.countP isSideSmallMsg
        = if 0 < (validatePauperDeck cards).sideboardCount
            ∧ (validatePauperDeck cards).sideboardCount < 15 then 1 else 0) ∧
    ((validatePauperDeck cards).errors.countP isSideLargeMsg
        = if 15 < (validatePauperDeck cards).sideboardCount then 1 else 0) ∧
    ((validatePauperDeck cards).isValid = true ↔ (validatePauperDeck cards).errors = []) := by
  intro cards
  have hm : (validatePauperDeck cards).mainDeckCount
      = (validateLoop cards (fun _ => 0)).2.1 := rfl
  have hs : (validatePauperDeck cards).sideboardCount
      = (validateLoop cards (fun _ => 0)).2.2 := rfl
  refine ⟨?_, ?_, ?_, ?_, ?_, ?_, ?_⟩
  · rw [hm, validateLoop_main]
  · rw [hs, validateLoop_side]
  · rw [hm]
    simp only [validatePauperDeck]
    rw [List.countP_append, List.countP_append, copy_countP_mainSmall]
    by_cases h60 : (validateLoop cards (fun _ => 0)).2.1 < 60 <;>
      by_cases hsn : 0 < (validateLoop cards (fun _ => 0)).2.2
          ∧ (validateLoop cards (fun _ => 0)).2.2 ≠ 15 <;>
        by_cases hlt : (validateLoop cards (fun _ => 0)).2.2 < 15 <;>
          simp [h60, hsn, hlt, List.countP_cons, isMainSmallMsg_small,
            isMainSmallMsg_sideLarge]
  · rw [hm]
    simp only [validatePauperDeck]
    rw [List.countP_append]
    by_cases h60 : 60 < (validateLoop cards (fun _ => 0)).2.1 <;>
      by_cases hsn : 0 < (validateLoop cards (fun _ => 0)).2.2
          ∧ (validateLoop cards (fun _ => 0)).2.2 ≠ 15 <;>
        by_cases hlt : (validateLoop cards (fun _ => 0)).2.2 < 15 <;>
          simp [h60, hsn, hlt, List.countP_cons, isMainLargeMsg_large,
            isMainLargeMsg_sideSmall]
  · rw [hs]
    simp only [validatePauperDeck]
    rw [List.countP_append]
    have hmain : List.countP isSideSmallMsg
        (if 60 < (validateLoop cards (fun _ => 0)).2.1
         then [VALIDATION_MESSAGES.mainDeckTooLarge (validateLoop cards (fun _ => 0)).2.1]
         else []) = 0 := by
      by_cases h : 60 < (validateLoop cards (fun _ => 0)).2.1
      · rw [if_pos h]
        simp [isSideSmallMsg_mainLarge]
      · rw [if_neg h]
        rfl
    rw [hmain, Nat.zero_add]
    by_cases hsn : 0 < (validateLoop cards (fun _ => 0)).2.2
        ∧ (validateLoop cards (fun _ => 0)).2.2 ≠ 15
    · by_cases hlt : (validateLoop cards (fun _ => 0)).2.2 < 15
      · rw [if_pos hsn, if_pos hlt, if_pos ⟨hsn.1, hlt⟩]
        simp [List.countP_cons, isSideSmallMsg_small]
      · rw [if_pos hsn, if_neg hlt, if_neg (fun hc => hlt hc.2)]
        rfl
    · rw [if_neg hsn, if_neg (fun hc => hsn ⟨hc.1, by omega⟩)]
      rfl
  · rw [hs]
    simp only [validatePauperDeck]
    rw [List.countP_append, List.countP_append, copy_countP_sideLarge, Nat.zero_add]
    have hmain : List.countP isSideLargeMsg
        (if (validateLoop cards (fun _ => 0)).2.1 < 60
         then [VALIDATION_MESSAGES.mainDeckTooSmall (validateLoop cards (fun _ => 0)).2.1]
         else []) = 0 := by
      by_cases h : (validateLoop cards (fun _ => 0)).2.1 < 60
      · rw [if_pos h]
        simp [isSideLargeMsg_mainSmall]
      · rw [if_neg h]
        rfl
    rw [hmain, Nat.zero_add]
    by_cases hsn : 0 < (validateLoop cards (fun _ => 0)).2.2
        ∧ (validateLoop cards (fun _ => 0)).2.2 ≠ 15
    · by_cases hlt : (validateLoop cards (fun _ => 0)).2.2 < 15
      · rw [if_pos hsn, if_pos hlt, if_neg (by omega : ¬ 15 < (validateLoop cards (fun _ => 0)).2.2)]
        rfl
      · rw [if_pos hsn, if_neg hlt, if_pos (by omega : 15 < (validateLoop cards (fun _ => 0)).2.2)]
        simp [List.countP_cons, isSideLargeMsg_large]
    · rw [if_neg hsn, if_neg (by omega : ¬ 15 < (validateLoop cards (fun _ => 0)).2.2)]
      rfl
  · simp only [validatePauperDeck]
    exact List.isEmpty_iff

/-- C5 counterexample: the name `Foo` totals 6 over main deck and sideboard,
yet two copy-limit errors reference it (one per line whose running total
exceeds 4), not exactly one. -/
theorem C5_counterexample :
    totalQuantity [⟨5, "Foo".data, false⟩, ⟨1, "Foo".data, true⟩] "Foo".data = 6 ∧
    (validatePauperDeck [⟨5, "Foo".data, false⟩, ⟨1, "Foo".data, true⟩]).errors.countP
      (fun e => includes e.message "Foo".data) = 2 := by decide

theorem mem_copyFindings {cards : List ParsedCard} {n : Str} {k : Nat} :
    (n, k) ∈ copyFindings cards ↔
    ∃ i, i < cards.length ∧ (cards.getD i ⟨0, [], false⟩).name = n ∧
      EXEMPT_LANDS.contains n = false ∧ 4 < k ∧ k = runningTotal cards i n := by
  unfold copyFindings
  rw [List.mem_filterMap]
  constructor
  · rintro ⟨i, hi, hsome⟩
    rw [List.mem_range] at hi
    by_cases hex : EXEMPT_LANDS.contains (cards.getD i ⟨0, [], false⟩).name
    · rw [if_pos hex] at hsome
      cases hsome
    · rw [if_neg hex] at hsome
      by_cases hbig : 4 < runningTotal cards i (cards.getD i ⟨0, [], false⟩).name
      · rw [if_pos hbig] at hsome
        rw [Option.some.injEq, Prod.mk.injEq] at hsome
        obtain ⟨hn, hk⟩ := hsome
        refine ⟨i, hi, hn, ?_, ?_, ?_⟩
        · rw [← hn]
          exact Bool.not_eq_true _ ▸ hex
        · rw [← hk]
          exact hbig
        · rw [← hk, hn]
      · rw [if_neg hbig] at hsome
        cases hsome
  · rintro ⟨i, hi, hname, hex, hbig, hk⟩
    refine ⟨i, List.mem_range.mpr hi, ?_⟩
    rw [hname, if_neg (by rw [hex]; exact Bool.false_ne_true)]
    rw [if_pos (by rw [← hk]; exact hbig)]
    rw [← hk]

theorem totalQuantity_take_le (cards : List ParsedCard) (j : Nat) (n : Str) :
    totalQuantity (cards.take j) n ≤ totalQuantity cards n := by
  conv_rhs => rw [← List.take_append_drop j cards]
  unfold totalQuantity
  rw [List.filter_append, List.map_append, List.sum_append]
  exact Nat.le_add_right _ _

/-- The copy-limit errors as a sublist of the validator output, related to the
prefix-sum findings. -/
theorem validate_errors_filter_copy (cards : List ParsedCard) :
    (validatePauperDeck cards).errors.filter isCopyMsg
      = (copyFindings cards).map (fun p => VALIDATION_MESSAGES.tooManyCopies p.1 p.2) := by
  have herr : (validatePauperDeck cards).errors.filter isCopyMsg
      = (validateLoop cards (fun _ => 0)).1 := by
    simp only [validatePauperDeck]
    rw [List.filter_append, List.filter_append]
    have h1 : ((validateLoop cards (fun _ => 0)).1).filter isCopyMsg
        = (validateLoop cards (fun _ => 0)).1 := by
      rw [List.filter_eq_self]
      intro e he
      obtain ⟨n, k, rfl⟩ := validateLoop_copy_shape cards _ e he
      exact isCopyMsg_copy n k
    have h2 : (if (validateLoop cards (fun _ => 0)).2.1 < 60
        then [VALIDATION_MESSAGES.mainDeckTooSmall (validateLoop cards (fun _ => 0)).2.1]
        else []).filter isCopyMsg = [] := by
      by_cases h : (validateLoop cards (fun _ => 0)).2.1 < 60
      · rw [if_pos h]
        simp [isCopyMsg_mainSmall]
      · rw [if_neg h]
        rfl
    have h3 : ((if 0 < (validateLoop cards (fun _ => 0)).2.2
          ∧ (validateLoop cards (fun _ => 0)).2.2 ≠ 15 then
          (if (validateLoop cards (fun _ => 0)).2.2 < 15 then
            (([] : List ValidationError),
             [VALIDATION_MESSAGES.sideboardTooSmall (validateLoop cards (fun _ => 0)).2.2])
          else ([VALIDATION_MESSAGES.sideboardTooLarge (validateLoop cards (fun _ => 0)).2.2],
            ([] : List ValidationError)))
        else ([], [])).1).filter isCopyMsg = [] := by
      by_cases hsn : 0 < (validateLoop cards (fun _ => 0)).2.2
          ∧ (validateLoop cards (fun _ => 0)).2.2 ≠ 15
      · by_cases hlt : (validateLoop cards (fun _ => 0)).2.2 < 15
        · rw [if_pos hsn, if_pos hlt]
          rfl
        · rw [if_pos hsn, if_neg hlt]
          simp [isCopyMsg_sideLarge]
      · rw [if_neg hsn]
        rfl
    rw [h1, h2, h3, List.append_nil, List.append_nil]
  rw [herr, validateLoop_fst_char]
  unfold copyFindings
  rw [List.map_filterMap]
  apply List.filterMap_congr
  intro i _
  unfold copyAt
  simp only [Nat.zero_add]
  by_cases hex : EXEMPT_LANDS.contains (cards.getD i ⟨0, [], false⟩).name
  · rw [if_pos hex, if_pos hex]
    rfl
  · rw [if_neg hex, if_neg hex]
    by_cases hbig : 4 < runningTotal cards i (cards.getD i ⟨0, [], false⟩).name
    · rw [if_pos hbig, if_pos hbig]
      rfl
    · rw [if_neg hbig, if_neg hbig]
      rfl

theorem countP_range_getD (cards : List ParsedCard) (p : ParsedCard → Bool) :
    (List.range cards.length).countP (fun i => p (cards.getD i ⟨0, [], false⟩))
      = cards.countP p := by
  induction cards with
  | nil => rfl
  | cons c rest ih =>
    rw [List.length_cons, List.range_succ_eq_map, List.countP_cons, List.countP_map,
      List.countP_cons]
    have hpt : ∀ i ∈ List.range rest.length,
        ((fun i => p ((c :: rest).getD i ⟨0, [], false⟩)) ∘ Nat.succ) i = true
          ↔ (fun i => p (rest.getD i ⟨0, [], false⟩)) i = true := by
      intro i _
      simp [List.getD_cons_succ]
    rw [List.countP_congr hpt, ih, List.getD_cons_zero]

/-- C5 (amended): the validator sums each name over main deck and sideboard
combined; a non-exempt occurrence produces a copy-limit error whenever its
running total exceeds 4 (so a name split over several lines can produce more
than one error, each referencing the running total at that line); a name
totalling at most 4 produces none; a non-exempt name appearing on exactly one
line with quantity above 4 produces exactly one error referencing that name
and its total; names in the fixed basic-land exemption set never produce a
copy-limit error. -/
theorem C5_amended_theorem : ∀ cards : List ParsedCard,
    ((validatePauperDeck cards).errors.filter isCopyMsg
        = (copyFindings cards).map (fun p => VALIDATION_MESSAGES.tooManyCopies p.1 p.2)) ∧
    (∀ n k, n ∈ EXEMPT_LANDS → (n, k) ∉ copyFindings cards) ∧
    (∀ n k, totalQuantity cards n ≤ 4 → (n, k) ∉ copyFindings cards) ∧
    (∀ n c₀, cards.filter (fun c => c.name == n) = [c₀] →
        EXEMPT_LANDS.contains n = false → 4 < c₀.quantity →
        (copyFindings cards).filter (fun p => p.1 == n) = [(n, c₀.quantity)]) := by
  intro cards
  refine ⟨validate_errors_filter_copy cards, ?_, ?_, ?_⟩
  · intro n k hmem hfind
    obtain ⟨i, _, _, hex, _, _⟩ := mem_copyFindings.mp hfind
    have helem : List.elem n EXEMPT_LANDS = true := List.elem_iff.mpr hmem
    have : EXEMPT_LANDS.contains n = true := helem
    rw [this] at hex
    cases hex
  · intro n k htot hfind
    obtain ⟨i, _, _, _, hbig, hk⟩ := mem_copyFindings.mp hfind
    have hle : k ≤ totalQuantity cards n := by
      rw [hk]
      exact totalQuantity_take_le cards (i + 1) n
    omega
  · intro n c₀ hfilter hex hbig
    have hc₀ : c₀ ∈ cards.filter (fun c => c.name == n) := by
      rw [hfilter]
      exact List.mem_singleton.mpr rfl
    have hc₀n : c₀.name = n := beq_iff_eq.mp (List.mem_filter.mp hc₀).2
    have hcnt : cards.countP (fun c => c.name == n) = 1 := by
      rw [List.countP_eq_length_filter, hfilter]
      rfl
    have hrun : ∀ i, i < cards.length → (cards.getD i ⟨0, [], false⟩).name = n →
        runningTotal cards i n = c₀.quantity := by
      intro i hi hname
      have hsub : ((cards.take (i + 1)).filter (fun c => c.name == n)).Sublist [c₀] := by
        have := List.Sublist.filter (fun c => c.name == n) (List.take_sublist (i + 1) cards)
        rwa [hfilter] at this
      have hleni : i < (cards.take (i + 1)).length := by
        rw [List.length_take]
        omega
      have hmemi : cards.getD i ⟨0, [], false⟩ ∈ cards.take (i + 1) := by
        rw [List.getD_eq_getElem cards _ hi]
        have hti : (cards.take (i + 1))[i] = cards[i] := List.getElem_take cards
        rw [← hti]
        exact List.getElem_mem hleni
      have hne : (cards.take (i + 1)).filter (fun c => c.name == n) ≠ [] := by
        intro hnil
        have hmf : cards.getD i ⟨0, [], false⟩
            ∈ (cards.take (i + 1)).filter (fun c => c.name == n) :=
          List.mem_filter.mpr ⟨hmemi, beq_iff_eq.mpr hname⟩
        rw [hnil] at hmf
        cases hmf
      rcases List.sublist_singleton.mp hsub with h0 | h1
      · exact absurd h0 hne
      · unfold runningTotal totalQuantity
        rw [h1]
        simp
    have hcntF : (copyFindings cards).countP (fun p => p.1 == n) = 1 := by
      unfold copyFindings
      rw [List.countP_filterMap]
      have hpt : ∀ i ∈ List.range cards.length,
          ((Option.map (fun p => p.1 == n)
            (if EXEMPT_LANDS.contains (cards.getD i ⟨0, [], false⟩).name then none
             else if 4 < runningTotal cards i (cards.getD i ⟨0, [], false⟩).name then
               some ((cards.getD i ⟨0, [], false⟩).name,
                 runningTotal cards i (cards.getD i ⟨0, [], false⟩).name)
             else none)).getD false) = true
          ↔ ((cards.getD i ⟨0, [], false⟩).name == n) = true := by
        intro i hi
        rw [List.mem_range] at hi
        by_cases hexi : EXEMPT_LANDS.contains (cards.getD i ⟨0, [], false⟩).name
        · rw [if_pos hexi]
          simp only [Option.map_none, Option.getD]
          constructor
          · intro hfalse
            cases hfalse
          · intro hrhs
            have hni := beq_iff_eq.mp hrhs
            rw [hni, hex] at hexi
            cases hexi
        · rw [if_neg hexi]
          by_cases hbigi : 4 < runningTotal cards i (cards.getD i ⟨0, [], false⟩).name
          · rw [if_pos hbigi]
            constructor
            · intro hsome
              exact hsome
            · intro hrhs
              exact hrhs
          · rw [if_neg hbigi]
            constructor
            · intro hfalse
              cases hfalse
            · intro hrhs
              have hni := beq_iff_eq.mp hrhs
              rw [hni] at hbigi
              rw [hrun i hi hni] at hbigi
              exact absurd hbig hbigi
      rw [List.countP_congr hpt, countP_range_getD cards (fun c => c.name == n), hcnt]
    have hval : ∀ p, p ∈ copyFindings cards → (p.1 == n) = true → p = (n, c₀.quantity) := by
      intro p hp hpn
      have hpn2 := beq_iff_eq.mp hpn
      have hp2 : (n, p.2) ∈ copyFindings cards := by
        rw [← hpn2]
        exact hp
      obtain ⟨i, hi, hname, _, _, hk⟩ := mem_copyFindings.mp hp2
      have hkval : p.2 = c₀.quantity := by
        rw [hk]
        exact hrun i hi hname
      have : p = (p.1, p.2) := rfl
      rw [this, hpn2, hkval]
    have hlenF : ((copyFindings cards).filter (fun p => p.1 == n)).length = 1 := by
      rw [← List.countP_eq_length_filter]
      exact hcntF
    obtain ⟨x, hx⟩ := List.length_eq_one.mp hlenF
    have hxmem : x ∈ (copyFindings cards).filter (fun p => p.1 == n) := by
      rw [hx]
      exact List.mem_singleton.mpr rfl
    have hx2 := List.mem_filter.mp hxmem
    rw [hx, hval x hx2.1 hx2.2]

/-- C5 witness: a single line `5 Foo` yields exactly the finding
`(Foo, 5)`. -/
theorem C5_witness :
    (copyFindings [⟨5, "Foo".data, false⟩]).filter
        (fun p => p.1 == "Foo".data) = [("Foo".data, 5)] :=
  (C5_amended_theorem [⟨5, "Foo".data, false⟩]).2.2.2 "Foo".data
    ⟨5, "Foo".data, false⟩ (by decide) (by decide) (by decide)

/-- C10 witness: a concrete two-card list with a fully resolving index. -/
theorem C10_witness :
    (∀ c ∈ [(⟨4, "Aa".data, false⟩ : ParsedCard), ⟨2, "Bb".data, true⟩],
      (((fun s => if s == "Aa".data
            then some (⟨"Aa".data, "Instant".data, 2, none, [], []⟩ : ScryfallCard)
            else if s == "Bb".data
            then some (⟨"Bb".data, "Land".data, 0, none, [], []⟩ : ScryfallCard)
            else none) : ScryfallIndex) (getFrontFaceName c.name)).isSome = true) ∧
    ∃ out, normalizeDeckWithIndex emptyLandSets
        [⟨4, "Aa".data, false⟩, ⟨2, "Bb".data, true⟩]
        (fun s => if s == "Aa".data
            then some (⟨"Aa".data, "Instant".data, 2, none, [], []⟩ : ScryfallCard)
            else if s == "Bb".data
            then some (⟨"Bb".data, "Land".data, 0, none, [], []⟩ : ScryfallCard)
            else none) = .ok out ∧
      out.map (fun nc => (nc.quantity, nc.name, nc.isSideboard))
        = [(⟨4, "Aa".data, false⟩ : ParsedCard), ⟨2, "Bb".data, true⟩].map
            (fun c => (c.quantity, c.name, c.isSideboard)) :=
  ⟨by decide, C10_theorem emptyLandSets _ _ (by decide)⟩


/-!
## Claim C6 — land-section sort order
-/

theorem strCmpI_neg : ∀ a b : Str, strCmpI b a = -strCmpI a b := by
  intro a
  induction a with
  | nil =>
    intro b
    cases b <;> simp [strCmpI]
  | cons x as ih =>
    intro b
    cases b with
    | nil => simp [strCmpI]
    | cons y bs =>
      simp only [strCmpI]
      rcases lt_trichotomy x y with h | h | h
      · rw [if_neg (asymm h), if_pos h, if_pos h]
        decide
      · subst h
        rw [if_neg (lt_irrefl x), if_neg (lt_irrefl x), if_neg (lt_irrefl x),
          if_neg (lt_irrefl x)]
        exact ih bs
      · rw [if_pos h, if_neg (asymm h), if_pos h]

theorem strCmpI_total : ∀ a b : Str, strCmpI a b ≤ 0 ∨ strCmpI b a ≤ 0 := by
  intro a b
  rw [strCmpI_neg a b]
  omega

theorem strCmpI_trans : ∀ a b c : Str,
    strCmpI a b ≤ 0 → strCmpI b c ≤ 0 → strCmpI a c ≤ 0 := by
  intro a
  induction a with
  | nil =>
    intro b c _ _
    cases c <;> simp [strCmpI]
  | cons x as ih =>
    intro b c hab hbc
    cases b with
    | nil => simp [strCmpI] at hab
    | cons y bs =>
      cases c with
      | nil => simp [strCmpI] at hbc
      | cons z cs =>
        simp only [strCmpI] at hab hbc ⊢
        rcases lt_trichotomy x y with hxy | hxy | hxy
        · rcases lt_trichotomy y z with hyz | hyz | hyz
          · rw [if_pos (lt_trans hxy hyz)]
            omega
          · subst hyz
            rw [if_pos hxy]
            omega
          · rw [if_neg (asymm hyz), if_pos hyz] at hbc
            omega
        · subst hxy
          rw [if_neg (lt_irrefl x), if_neg (lt_irrefl x)] at hab
          rcases lt_trichotomy x z with hxz | hxz | hxz
          · rw [if_pos hxz]
            omega
          · subst hxz
            rw [if_neg (lt_irrefl x), if_neg (lt_irrefl x)] at hbc
            rw [if_neg (lt_irrefl x), if_neg (lt_irrefl x)]
            exact ih bs cs hab hbc
          · rw [if_neg (asymm hxz), if_pos hxz] at hbc
            omega
        · rw [if_neg (asymm hxy), if_pos hxy] at hab
          omega

theorem lexCmp_trans {ra rb rc qa qb qc : Nat} {sab sbc sac : Int}
    (hs : sab ≤ 0 → sbc ≤ 0 → sac ≤ 0)
    (hab : (if ra ≠ rb then (ra : Int) - (rb : Int)
        else if qa ≠ qb then (qb : Int) - (qa : Int) else sab) ≤ 0)
    (hbc : (if rb ≠ rc then (rb : Int) - (rc : Int)
        else if qb ≠ qc then (qc : Int) - (qb : Int) else sbc) ≤ 0) :
    (if ra ≠ rc then (ra : Int) - (rc : Int)
        else if qa ≠ qc then (qc : Int) - (qa : Int) else sac) ≤ 0 := by
  by_cases h1 : ra = rb
  · subst h1
    rw [if_neg (show ¬ ra ≠ ra from fun hc => hc rfl)] at hab
    by_cases h2 : ra = rc
    · subst h2
      rw [if_neg (show ¬ ra ≠ ra from fun hc => hc rfl)] at hbc
      rw [if_neg (show ¬ ra ≠ ra from fun hc => hc rfl)]
      by_cases h3 : qa = qb
      · subst h3
        rw [if_neg (show ¬ qa ≠ qa from fun hc => hc rfl)] at hab
        by_cases h4 : qa = qc
        · subst h4
          rw [if_neg (show ¬ qa ≠ qa from fun hc => hc rfl)] at hbc
          rw [if_neg (show ¬ qa ≠ qa from fun hc => hc rfl)]
          exact hs hab hbc
        · rw [if_pos (show qa ≠ qc from h4)] at hbc
          rw [if_pos (show qa ≠ qc from h4)]
          exact hbc
      · rw [if_pos (show qa ≠ qb from h3)] at hab
        by_cases h4 : qb = qc
        · subst h4
          rw [if_pos (show qa ≠ qb from h3)]
          exact hab
        · rw [if_pos (show qb ≠ qc from h4)] at hbc
          by_cases h5 : qa = qc
          · exfalso
            omega
          · rw [if_pos (show qa ≠ qc from h5)]
            omega
    · rw [if_pos (show ra ≠ rc from h2)] at hbc
      rw [if_pos (show ra ≠ rc from h2)]
      exact hbc
  · rw [if_pos (show ra ≠ rb from h1)] at hab
    by_cases h2 : rb = rc
    · subst h2
      rw [if_pos (show ra ≠ rb from h1)]
      exact hab
    · rw [if_pos (show rb ≠ rc from h2)] at hbc
      have h3 : ra ≠ rc := by omega
      rw [if_pos h3]
      omega

theorem lexCmp_total {ra rb qa qb : Nat} {sab sba : Int} (hs : sab ≤ 0 ∨ sba ≤ 0) :
    (if ra ≠ rb then (ra : Int) - (rb : Int)
        else if qa ≠ qb then (qb : Int) - (qa : Int) else sab) ≤ 0 ∨
    (if rb ≠ ra then (rb : Int) - (ra : Int)
        else if qb ≠ qa then (qa : Int) - (qb : Int) else sba) ≤ 0 := by
  by_cases h1 : ra = rb
  · subst h1
    rw [if_neg (show ¬ ra ≠ ra from fun hc => hc rfl),
      if_neg (show ¬ ra ≠ ra from fun hc => hc rfl)]
    by_cases h2 : qa = qb
    · subst h2
      rw [if_neg (show ¬ qa ≠ qa from fun hc => hc rfl),
        if_neg (show ¬ qa ≠ qa from fun hc => hc rfl)]
      exact hs
    · rw [if_pos (show qa ≠ qb from h2), if_pos (show qb ≠ qa from fun hc => h2 hc.symm)]
      omega
  · rw [if_pos (show ra ≠ rb from h1), if_pos (show rb ≠ ra from fun hc => h1 hc.symm)]
    omega

theorem landCmpI_trans (sets : LandSets) (a b c : NormalizedCard)
    (hab : landCmpI sets a b ≤ 0) (hbc : landCmpI sets b c ≤ 0) :
    landCmpI sets a c ≤ 0 := by
  simp only [landCmpI] at hab hbc ⊢
  exact lexCmp_trans (strCmpI_trans a.name b.name c.name) hab hbc

theorem landCmpI_total (sets : LandSets) (a b : NormalizedCard) :
    landCmpI sets a b ≤ 0 ∨ landCmpI sets b a ≤ 0 := by
  simp only [landCmpI]
  exact lexCmp_total (strCmpI_total a.name b.name)

theorem landCmpI_le_claimOrder (sets : LandSets) {a b : NormalizedCard}
    (ha : a.landCategory.isSome = true) (hb : b.landCategory.isSome = true)
    (h : landCmpI sets a b ≤ 0) : landClaimOrder a b := by
  obtain ⟨ca, hca⟩ := Option.isSome_iff_exists.mp ha
  obtain ⟨cb, hcb⟩ := Option.isSome_iff_exists.mp hb
  unfold landCmpI at h
  unfold landClaimOrder
  simp only [hca, hcb, Option.getD_some] at h ⊢
  by_cases h1 : landCategoryRank ca = landCategoryRank cb
  · refine Or.inr ⟨h1, ?_⟩
    rw [if_neg (fun hc => hc h1)] at h
    by_cases h2 : a.quantity = b.quantity
    · refine Or.inr ⟨h2, ?_⟩
      rw [if_neg (fun hc => hc h2)] at h
      exact h
    · refine Or.inl ?_
      rw [if_pos h2] at h
      omega
  · refine Or.inl ?_
    rw [if_pos h1] at h
    omega

/-- C6: within the Land section, `sortCards` produces a permutation of the
input sorted by land-category rank ascending (under the order Bounceland <
ArtifactBi < ArtifactMono < Gate < Fixer < TaplandBi < TaplandMono < Fetch <
Basic < Other), ties broken by quantity descending, then by name ascending. -/
theorem C6_theorem : ∀ (sets : LandSets) (cards : List NormalizedCard),
    (∀ c ∈ cards, c.landCategory.isSome = true) →
    (sortCards sets cards Section.land).Perm cards ∧
    (sortCards sets cards Section.land).Pairwise landClaimOrder := by
  intro sets cards hall
  have hsort : sortCards sets cards Section.land
      = List.insertionSort (fun a b => landCmpI sets a b ≤ 0) cards := by
    simp [sortCards]
  haveI hTr : IsTrans NormalizedCard (fun a b => landCmpI sets a b ≤ 0) :=
    ⟨fun a b c => landCmpI_trans sets a b c⟩
  haveI hTo : IsTotal NormalizedCard (fun a b => landCmpI sets a b ≤ 0) :=
    ⟨fun a b => landCmpI_total sets a b⟩
  constructor
  · rw [hsort]
    exact List.perm_insertionSort _ _
  · rw [hsort]
    have hs := List.sorted_insertionSort (fun a b => landCmpI sets a b ≤ 0) cards
    refine List.Pairwise.imp_of_mem ?_ hs
    intro a b hma hmb hr
    exact landCmpI_le_claimOrder sets
      (hall a ((List.mem_insertionSort _).mp hma))
      (hall b ((List.mem_insertionSort _).mp hmb)) hr

/-- C6 witness: equal-quantity Fetch, Basic and Bounceland lands come out in
the order Bounceland, Fetch, Basic. -/
theorem C6_witness :
    (∀ c ∈ [(⟨2, "F".data, false, Section.land, 0, none, some LandCategory.fetch⟩
             : NormalizedCard),
            ⟨2, "B".data, false, Section.land, 0, none, some LandCategory.basic⟩,
            ⟨2, "Z".data, false, Section.land, 0, none, some LandCategory.bounceland⟩],
      c.landCategory.isSome = true) ∧
    ((sortCards emptyLandSets
        [(⟨2, "F".data, false, Section.land, 0, none, some LandCategory.fetch⟩
          : NormalizedCard),
         ⟨2, "B".data, false, Section.land, 0, none, some LandCategory.basic⟩,
         ⟨2, "Z".data, false, Section.land, 0, none, some LandCategory.bounceland⟩]
        Section.land).Perm
        [(⟨2, "F".data, false, Section.land, 0, none, some LandCategory.fetch⟩
          : NormalizedCard),
         ⟨2, "B".data, false, Section.land, 0, none, some LandCategory.basic⟩,
         ⟨2, "Z".data, false, Section.land, 0, none, some LandCategory.bounceland⟩] ∧
      (sortCards emptyLandSets
        [(⟨2, "F".data, false, Section.land, 0, none, some LandCategory.fetch⟩
          : NormalizedCard),
         ⟨2, "B".data, false, Section.land, 0, none, some LandCategory.basic⟩,
         ⟨2, "Z".data, false, Section.land, 0, none, some LandCategory.bounceland⟩]
        Section.land).Pairwise landClaimOrder) ∧
    sortCards emptyLandSets
        [(⟨2, "F".data, false, Section.land, 0, none, some LandCategory.fetch⟩
          : NormalizedCard),
         ⟨2, "B".data, false, Section.land, 0, none, some LandCategory.basic⟩,
         ⟨2, "Z".data, false, Section.land, 0, none, some LandCategory.bounceland⟩]
        Section.land
      = [(⟨2, "Z".data, false, Section.land, 0, none, some LandCategory.bounceland⟩
          : NormalizedCard),
         ⟨2, "F".data, false, Section.land, 0, none, some LandCategory.fetch⟩,
         ⟨2, "B".data, false, Section.land, 0, none, some LandCategory.basic⟩] :=
  ⟨by decide, C6_theorem emptyLandSets _ (by decide), by decide⟩

/-!
## Claim C9 — print / parse round trip
-/

theorem modifyHead_append {f : Str → Str} {l₁ l₂ : List Str} (h : l₁ ≠ []) :
    (l₁ ++ l₂).modifyHead f = l₁.modifyHead f ++ l₂ := by
  cases l₁ with
  | nil => exact absurd rfl h
  | cons a as => rfl

theorem splitOn_cons_self (ys : Str) :
    (('\n' :: ys).splitOn '\n') = [] :: ys.splitOn '\n' := by
  show List.splitOnP (· == '\n') ('\n' :: ys) = [] :: List.splitOnP (· == '\n') ys
  rw [List.splitOnP_cons, if_pos (by rfl)]

theorem splitOn_append_newline : ∀ (xs ys : Str),
    ((xs ++ '\n' :: ys).splitOn '\n') = xs.splitOn '\n' ++ ys.splitOn '\n' := by
  intro xs
  induction xs with
  | nil =>
    intro ys
    rw [List.nil_append, splitOn_cons_self]
    rfl
  | cons a as ih =>
    intro ys
    show List.splitOnP (· == '\n') (a :: (as ++ '\n' :: ys)) = _
    rw [List.splitOnP_cons]
    by_cases ha : a = '\n'
    · rw [if_pos (by simp [ha])]
      show _ = List.splitOnP (· == '\n') (a :: as) ++ _
      rw [List.splitOnP_cons, if_pos (by simp [ha])]
      rw [show List.splitOnP (· == '\n') (as ++ '\n' :: ys)
          = (as ++ '\n' :: ys).splitOn '\n' from rfl, ih ys]
      rfl
    · rw [if_neg (by simp [ha])]
      show List.modifyHead _ ((as ++ '\n' :: ys).splitOn '\n') = _
      rw [ih ys]
      rw [modifyHead_append (show List.splitOn '\n' as ≠ [] from List.splitOnP_ne_nil _ as)]
      show _ = List.splitOnP (· == '\n') (a :: as) ++ _
      rw [List.splitOnP_cons, if_neg (by simp [ha])]
      rfl

theorem splitOn_no_newline {l : Str} (h : ('\n') ∉ l) : l.splitOn '\n' = [l] := by
  apply List.splitOnP_eq_single
  intro x hx
  simp only [beq_iff_eq]
  intro he
  exact h (he ▸ hx)

theorem toDigitsRevFuel_val : ∀ (fuel n : Nat), n ≤ fuel →
    (toDigitsRevFuel fuel n).foldr (fun d r => 10 * r + d) 0 = n := by
  intro fuel
  induction fuel with
  | zero =>
    intro n h
    have : n = 0 := by omega
    simp [toDigitsRevFuel, this]
  | succ fuel ih =>
    intro n h
    by_cases h0 : n = 0
    · simp [toDigitsRevFuel, h0]
    · have hdiv : n / 10 < n := Nat.div_lt_self (Nat.pos_of_ne_zero h0) (by omega)
      simp only [toDigitsRevFuel, h0, if_false, List.foldr_cons]
      rw [ih (n / 10) (by omega)]
      omega

theorem toDigitsRevFuel_lt : ∀ (fuel n : Nat), ∀ d ∈ toDigitsRevFuel fuel n, d < 10 := by
  intro fuel
  induction fuel with
  | zero =>
    intro n d hd
    simp [toDigitsRevFuel] at hd
  | succ fuel ih =>
    intro n d hd
    by_cases h0 : n = 0
    · simp [toDigitsRevFuel, h0] at hd
    · simp only [toDigitsRevFuel, h0, if_false, List.mem_cons] at hd
      rcases hd with rfl | hd
      · exact Nat.mod_lt _ (by omega)
      · exact ih _ d hd

theorem digitChar_props {d : Nat} (h : d < 10) :
    (Char.ofNat (48 + d)).isDigit = true ∧ isWs (Char.ofNat (48 + d)) = false ∧
    isLineTerm (Char.ofNat (48 + d)) = false ∧ (Char.ofNat (48 + d)).toNat - 48 = d ∧
    (Char.ofNat (48 + d)) ≠ '\n' := by
  interval_cases d <;> exact ⟨rfl, rfl, rfl, rfl, by decide⟩

theorem natToStr_all_digits {n : Nat} : ∀ c ∈ natToStr n, c.isDigit = true := by
  intro c hc
  unfold natToStr at hc
  by_cases h0 : n = 0
  · rw [if_pos h0] at hc
    rcases List.mem_singleton.mp hc with rfl
    decide
  · rw [if_neg h0] at hc
    rw [List.mem_reverse, List.mem_map] at hc
    obtain ⟨d, hd, rfl⟩ := hc
    exact (digitChar_props (toDigitsRevFuel_lt n n d hd)).1

theorem natToStr_no_newline {n : Nat} : ('\n') ∉ natToStr n := by
  intro hc
  have := natToStr_all_digits '\n' hc
  cases this

theorem natToStr_ne_nil (n : Nat) : natToStr n ≠ [] := by
  unfold natToStr
  by_cases h0 : n = 0
  · rw [if_pos h0]
    exact List.cons_ne_nil _ _
  · rw [if_neg h0]
    simp only [ne_eq, List.reverse_eq_nil_iff, List.map_eq_nil_iff]
    cases n with
    | zero => exact absurd rfl h0
    | succ m =>
      simp [toDigitsRevFuel]

theorem natOfDigits_natToStr (n : Nat) : natOfDigits (natToStr n) = n := by
  unfold natOfDigits natToStr
  by_cases h0 : n = 0
  · rw [if_pos h0, h0]
    decide
  · rw [if_neg h0]
    rw [List.foldl_reverse, List.foldr_map]
    have hpt : ∀ (l : List Nat), (∀ d ∈ l, d < 10) →
        l.foldr (fun d r => 10 * r + ((Char.ofNat (48 + d)).toNat - 48)) 0
          = l.foldr (fun d r => 10 * r + d) 0 := by
      intro l
      induction l with
      | nil => intro _; rfl
      | cons d ds ih =>
        intro hall
        rw [List.foldr_cons, List.foldr_cons,
          ih (fun e he => hall e (List.mem_cons_of_mem _ he)),
          (digitChar_props (hall d (List.mem_cons_self _ _))).2.2.2.1]
    rw [show (fun (x : Nat) (y : Nat) => 10 * y + ((Char.ofNat (48 + x)).toNat - 48))
        = fun d r => 10 * r + ((Char.ofNat (48 + d)).toNat - 48) from rfl]
    rw [hpt _ (toDigitsRevFuel_lt n n), toDigitsRevFuel_val n n (Nat.le_refl n)]

theorem parseLoop_pairs_flag : ∀ (ls : List Str) (sb : Bool),
    (parseLoop sb ls).map (fun p => (p.quantity, p.name)) = parsePairs ls := by
  intro ls
  induction ls with
  | nil => intro sb; rfl
  | cons l ls ih =>
    intro sb
    show _ = (parseLoop false (l :: ls)).map _
    simp only [parseLoop]
    by_cases h1 : (trim l).isEmpty = true
    · rw [if_pos h1, if_pos h1, ih sb]
      exact (ih false).symm
    · rw [if_neg h1, if_neg h1]
      by_cases h2 : isSideboardLine (trim l) = true
      · rw [if_pos h2, if_pos h2]
      · rw [if_neg h2, if_neg h2]
        cases hm : matchCard (trim l) with
        | none =>
          rw [ih sb]
          exact (ih false).symm
        | some qn =>
          rw [List.map_cons, List.map_cons, ih sb]
          exact congrArg _ (ih false).symm

theorem parsePairs_append : ∀ (ls1 ls2 : List Str),
    parsePairs (ls1 ++ ls2) = parsePairs ls1 ++ parsePairs ls2 := by
  intro ls1
  induction ls1 with
  | nil => intro ls2; rfl
  | cons l ls1 ih =>
    intro ls2
    show (parseLoop false (l :: (ls1 ++ ls2))).map _
      = (parseLoop false (l :: ls1)).map _ ++ parsePairs ls2
    simp only [parseLoop]
    by_cases h1 : (trim l).isEmpty = true
    · rw [if_pos h1, if_pos h1]
      exact ih ls2
    · rw [if_neg h1, if_neg h1]
      by_cases h2 : isSideboardLine (trim l) = true
      · rw [if_pos h2, if_pos h2, parseLoop_pairs_flag (ls1 ++ ls2) true,
          parseLoop_pairs_flag ls1 true]
        exact ih ls2
      · rw [if_neg h2, if_neg h2]
        cases hm : matchCard (trim l) with
        | none => exact ih ls2
        | some qn =>
          rw [List.map_cons, List.map_cons, List.cons_append]
          exact congrArg _ (ih ls2)

theorem parseLoop_blank_cons (sb : Bool) (ls : List Str) :
    parseLoop sb ([] :: ls) = parseLoop sb ls := by
  have h : (trim ([] : Str)).isEmpty = true := rfl
  simp only [parseLoop, h, if_true]

theorem parsePairs_blank_cons (ls : List Str) :
    parsePairs ([] :: ls) = parsePairs ls := by
  unfold parsePairs
  rw [parseLoop_blank_cons]

/-- No section label (not even `Sideboard`, which sets the flag) emits a
pair. -/
theorem parsePairs_label (s : Section) : parsePairs [SECTION_LABEL s] = [] := by
  cases s <;> decide

theorem intercalate_single (sep : Str) (x : Str) : List.intercalate sep [x] = x := by
  simp [List.intercalate]

theorem intercalate_cons_cons (sep x y : Str) (ys : List Str) :
    List.intercalate sep (x :: y :: ys) = x ++ sep ++ List.intercalate sep (y :: ys) := by
  simp [List.intercalate, List.intersperse]

theorem head?_append_left {l₁ l₂ : Str} {c : Char} (h : l₁.head? = some c) :
    (l₁ ++ l₂).head? = some c := by
  cases l₁ with
  | nil => simp at h
  | cons x xs =>
    simp only [List.head?_cons, Option.some.injEq] at h
    simp [h]

theorem getLast?_append_right {l₁ l₂ : Str} {c : Char} (h : l₂.getLast? = some c) :
    (l₁ ++ l₂).getLast? = some c := by
  rw [List.getLast?_append, h]
  rfl

theorem takeWhile_append_stop {p : Char → Bool} :
    ∀ (xs : Str) {y : Char} (ys : Str), (∀ c ∈ xs, p c = true) → p y = false →
    (xs ++ y :: ys).takeWhile p = xs ∧ (xs ++ y :: ys).dropWhile p = y :: ys := by
  intro xs
  induction xs with
  | nil =>
    intro y ys _ hy
    refine ⟨?_, ?_⟩
    · simp [List.takeWhile_cons, hy]
    · simp [List.dropWhile_cons, hy]
  | cons x xs ih =>
    intro y ys hall hy
    have hx : p x = true := hall x (List.mem_cons_self _ _)
    have ihr := ih ys (fun c hc => hall c (List.mem_cons_of_mem _ hc)) hy
    refine ⟨?_, ?_⟩
    · rw [List.cons_append, List.takeWhile_cons, if_pos hx, ihr.1]
    · rw [List.cons_append, List.dropWhile_cons, if_pos hx, ihr.2]

theorem isWs_of_isDigit {c : Char} (h : c.isDigit = true) : isWs c = false := by
  have h48 : 48 ≤ c.toNat := by
    have h1 := (Bool.and_eq_true _ _).mp h
    have := UInt32.le_def.mp (of_decide_eq_true h1.1)
    simpa [Char.toNat] using this
  have h57 := toNat_le_of_isDigit h
  unfold isWs
  rw [Bool.or_eq_false_iff, Bool.or_eq_false_iff, Bool.or_eq_false_iff,
    Bool.or_eq_false_iff, Bool.or_eq_false_iff]
  refine ⟨⟨⟨⟨⟨?_, ?_⟩, ?_⟩, ?_⟩, ?_⟩, ?_⟩ <;>
  · rw [beq_eq_false_iff_ne]
    intro he
    rw [he] at h48
    exact absurd h48 (by decide)

theorem natToStr_head_digit (n : Nat) :
    ∃ d rest, natToStr n = d :: rest ∧ d.isDigit = true := by
  cases hh : natToStr n with
  | nil => exact absurd hh (natToStr_ne_nil n)
  | cons d rest =>
    exact ⟨d, rest, rfl, natToStr_all_digits d (hh ▸ List.mem_cons_self _ _)⟩

theorem trim_cardLine {c : NormalizedCard} (hn : wfNameB c.name = true) :
    trim (cardLine c) = cardLine c := by
  obtain ⟨hne, htr, _⟩ := wfNameB_iff.mp hn
  obtain ⟨d, rest, hd, hdig⟩ := natToStr_head_digit c.quantity
  apply trim_eq_self
  · intro ch hch
    unfold cardLine at hch
    rw [hd, List.cons_append, List.head?_cons, Option.some.injEq] at hch
    rw [← hch]
    exact isWs_of_isDigit hdig
  · intro ch hch
    unfold cardLine at hch
    cases hl : c.name.getLast? with
    | none => exact absurd (List.getLast?_eq_none_iff.mp hl) hne
    | some x =>
      rw [getLast?_append_right
        (show (' ' :: c.name).getLast? = some x from by
          rw [List.getLast?_cons, hl]; rfl), Option.some.injEq] at hch
      rw [← hch]
      exact trim_getLast_not_ws (htr ▸ hl)

theorem matchCard_cardLine {c : NormalizedCard} (hn : wfNameB c.name = true) :
    matchCard (cardLine c) = some (c.quantity, c.name) := by
  obtain ⟨hne, htr, hnoterm⟩ := wfNameB_iff.mp hn
  have hdigits : ∀ ch ∈ natToStr c.quantity, Char.isDigit ch = true := natToStr_all_digits
  have hsp : Char.isDigit ' ' = false := by decide
  have hsplit := takeWhile_append_stop (p := Char.isDigit) (natToStr c.quantity)
    c.name hdigits hsp
  have hwsname : c.name.takeWhile isWs = [] ∧ c.name.dropWhile isWs = c.name := by
    cases hc : c.name with
    | nil => exact ⟨rfl, rfl⟩
    | cons x xs =>
      have hx : isWs x = false := by
        apply trim_head_not_ws (s := c.name)
        rw [htr, hc]
        rfl
      refine ⟨?_, ?_⟩
      · rw [List.takeWhile_cons, if_neg (by simp [hx])]
      · rw [List.dropWhile_cons, if_neg (by simp [hx])]
  simp only [cardLine, matchCard]
  rw [hsplit.1, hsplit.2]
  rw [show (' ' :: c.name).takeWhile isWs = ' ' :: c.name.takeWhile isWs from by
    rw [List.takeWhile_cons, if_pos (by decide)]]
  rw [show (' ' :: c.name).dropWhile isWs = c.name.dropWhile isWs from by
    rw [List.dropWhile_cons, if_pos (by decide)]]
  rw [hwsname.1, hwsname.2]
  rw [if_neg]
  · rw [natOfDigits_natToStr]
  · simp only [Bool.or_eq_true, not_or, Bool.not_eq_true]
    refine ⟨⟨⟨?_, rfl⟩, ?_⟩, ?_⟩
    · simp [List.isEmpty_iff, natToStr_ne_nil]
    · simpa [List.isEmpty_iff] using hne
    · rw [List.any_eq_false]
      intro x hx
      simp [hnoterm x hx]

theorem cardLine_no_newline {c : NormalizedCard} (hn : wfNameB c.name = true) :
    ('\n') ∉ cardLine c := by
  obtain ⟨_, _, hnoterm⟩ := wfNameB_iff.mp hn
  unfold cardLine
  rw [List.mem_append, List.mem_cons]
  rintro (h | h | h)
  · exact natToStr_no_newline h
  · cases h
  · have := hnoterm '\n' h
    cases this

theorem parsePairs_cardLines : ∀ {g : List NormalizedCard},
    (∀ c ∈ g, wfNameB c.name = true) →
    parsePairs (g.map cardLine) = g.map (fun c => (c.quantity, c.name)) := by
  intro g
  induction g with
  | nil => intro _; rfl
  | cons c g ih =>
    intro h
    have hc := h c (List.mem_cons_self _ _)
    have hmatch : matchCard (trim (cardLine c)) = some (c.quantity, c.name) := by
      rw [trim_cardLine hc]
      exact matchCard_cardLine hc
    unfold parsePairs
    rw [List.map_cons, parseLoop_card_step hmatch, List.map_cons]
    exact congrArg _ (ih fun x hx => h x (List.mem_cons_of_mem _ hx))

theorem splitOn_intercalate_lines : ∀ (lines : List Str), lines ≠ [] →
    (∀ l ∈ lines, ('\n') ∉ l) →
    (List.intercalate ['\n'] lines).splitOn '\n' = lines := by
  intro lines
  induction lines with
  | nil => intro h; exact absurd rfl h
  | cons l ls ih =>
    intro _ hall
    cases ls with
    | nil =>
      rw [intercalate_single]
      exact splitOn_no_newline (hall l (List.mem_cons_self _ _))
    | cons m ms =>
      rw [intercalate_cons_cons, List.append_assoc,
        show (['\n'] : Str) ++ List.intercalate ['\n'] (m :: ms)
          = '\n' :: List.intercalate ['\n'] (m :: ms) from rfl,
        splitOn_append_newline, splitOn_no_newline (hall l (List.mem_cons_self _ _)),
        ih (List.cons_ne_nil _ _) (fun x hx => hall x (List.mem_cons_of_mem _ hx))]
      rfl

theorem label_no_newline (s : Section) : ('\n') ∉ SECTION_LABEL s := by
  cases s <;> decide

/-- The pairs parsed back from one printed block: the label line contributes
nothing, each card line contributes its card's pair. -/
theorem parsePairs_block {s : Section} {g : List NormalizedCard} (hg : g ≠ [])
    (h : ∀ c ∈ g, wfNameB c.name = true) :
    parsePairs ((SECTION_LABEL s ++ '\n' :: List.intercalate ['\n']
        (g.map cardLine)).splitOn '\n')
      = g.map (fun c => (c.quantity, c.name)) := by
  rw [splitOn_append_newline, splitOn_no_newline (label_no_newline s),
    splitOn_intercalate_lines _ (by simpa using hg)
      (fun l hl => by
        obtain ⟨c, hc, rfl⟩ := List.mem_map.mp hl
        exact cardLine_no_newline (h c hc)),
    parsePairs_append, parsePairs_label, List.nil_append]
  exact parsePairs_cardLines h

theorem parsePairs_join_blocks : ∀ (blocks : List Str), blocks ≠ [] →
    parsePairs ((List.intercalate ['\n', '\n'] blocks).splitOn '\n')
      = (blocks.map (fun b => parsePairs (b.splitOn '\n'))).flatten := by
  intro blocks
  induction blocks with
  | nil => intro h; exact absurd rfl h
  | cons b bs ih =>
    intro _
    cases bs with
    | nil =>
      rw [intercalate_single]
      simp
    | cons m ms =>
      rw [intercalate_cons_cons, List.append_assoc,
        show (['\n', '\n'] : Str) ++ List.intercalate ['\n', '\n'] (m :: ms)
          = '\n' :: ('\n' :: List.intercalate ['\n', '\n'] (m :: ms)) from rfl,
        splitOn_append_newline, splitOn_cons_self, parsePairs_append,
        parsePairs_blank_cons, ih (List.cons_ne_nil _ _)]
      rfl

theorem sortCards_perm (sets : LandSets) (g : List NormalizedCard) (s : Section) :
    (sortCards sets g s).Perm g := by
  unfold sortCards
  split
  · exact List.perm_insertionSort _ _
  · split
    · exact List.perm_insertionSort _ _
    · exact List.perm_insertionSort _ _

theorem flatten_map_perm {α β : Type} : ∀ (l : List α) (f g : α → List β),
    (∀ a ∈ l, (f a).Perm (g a)) → ((l.map f).flatten).Perm ((l.map g).flatten) := by
  intro l f g
  induction l with
  | nil => intro _; exact List.Perm.refl _
  | cons a as ih =>
    intro h
    rw [List.map_cons, List.map_cons, List.flatten_cons, List.flatten_cons]
    exact (h a (List.mem_cons_self _ _)).append
      (ih fun x hx => h x (List.mem_cons_of_mem _ hx))

theorem flatten_map_filter {α β : Type} : ∀ (l : List α) (p : α → Bool) (f : α → List β),
    (∀ a ∈ l, p a = false → f a = []) →
    (((l.filter p).map f).flatten) = ((l.map f).flatten) := by
  intro l p f
  induction l with
  | nil => intro _; rfl
  | cons a as ih =>
    intro h
    rw [List.map_cons, List.flatten_cons, List.filter_cons]
    cases hp : p a with
    | true =>
      rw [if_pos rfl, List.map_cons, List.flatten_cons,
        ih (fun x hx hpx => h x (List.mem_cons_of_mem _ hx) hpx)]
    | false =>
      rw [if_neg (by simp), h a (List.mem_cons_self _ _) hp, List.nil_append,
        ih (fun x hx hpx => h x (List.mem_cons_of_mem _ hx) hpx)]

theorem section_mem_PRINT_ORDER : ∀ {s : Section}, s ≠ Section.unknown →
    s ∈ PRINT_ORDER := by
  intro s h
  cases s <;> first | exact absurd rfl h | decide

/-- Concatenating the per-section filters over a duplicate-free section list
that covers every card recovers the card list up to permutation. -/
theorem flatten_filter_sections : ∀ (secs : List Section) (cards : List NormalizedCard),
    secs.Nodup → (∀ c ∈ cards, c.«section» ∈ secs) →
    ((secs.map (fun s => cards.filter (fun c => c.«section» == s))).flatten).Perm cards := by
  intro secs
  induction secs with
  | nil =>
    intro cards _ hmem
    cases cards with
    | nil => exact List.Perm.refl _
    | cons c cs => exact absurd (hmem c (List.mem_cons_self _ _)) (List.not_mem_nil _)
  | cons s ss ih =>
    intro cards hnd hmem
    have hs_not : s ∉ ss := (List.nodup_cons.mp hnd).1
    rw [List.map_cons, List.flatten_cons]
    have hrepl : ss.map (fun t => cards.filter (fun c => c.«section» == t))
        = ss.map (fun t => (cards.filter (fun c => !(c.«section» == s))).filter
            (fun c => c.«section» == t)) := by
      apply List.map_congr_left
      intro t ht
      rw [List.filter_filter]
      apply List.filter_congr
      intro c _
      cases hct : (c.«section» == t) with
      | false => rfl
      | true =>
        have : c.«section» = t := eq_of_beq hct
        have hne : (c.«section» == s) = false := by
          rw [beq_eq_false_iff_ne, this]
          intro he
          exact hs_not (he ▸ ht)
        rw [hne]
        rfl
    rw [hrepl]
    have hperm := ih (cards.filter (fun c => !(c.«section» == s)))
      (List.nodup_cons.mp hnd).2
      (by
        intro c hc
        have hcs := List.mem_filter.mp hc
        have := hmem c hcs.1
        rcases List.mem_cons.mp this with he | hss
        · exfalso
          have := hcs.2
          rw [he] at this
          simp at this
        · exact hss)
    exact ((List.Perm.append_left _ hperm).trans (List.filter_append_perm _ cards))

theorem head?_intercalate_blocks (sep : Str) (b : Str) (bs : List Str) {c : Char}
    (h : b.head? = some c) : (List.intercalate sep (b :: bs)).head? = some c := by
  cases bs with
  | nil => rw [intercalate_single]; exact h
  | cons m ms =>
    rw [intercalate_cons_cons]
    exact head?_append_left (head?_append_left h)

theorem getLast?_intercalate_blocks (sep : Str) : ∀ (bs : List Str) (b : Str) {c : Char},
    b.getLast? = some c → (List.intercalate sep (bs ++ [b])).getLast? = some c := by
  intro bs
  induction bs with
  | nil =>
    intro b c h
    rw [List.nil_append, intercalate_single]
    exact h
  | cons x xs ih =>
    intro b c h
    rw [List.cons_append]
    have hy := ih b h
    cases hxs : xs ++ [b] with
    | nil => exact absurd hxs (by simp)
    | cons y ys =>
      rw [hxs] at hy
      rw [intercalate_cons_cons]
      exact getLast?_append_right hy

/-- The printed text starts and ends with the non-whitespace boundary
characters of its blocks, so JavaScript `trim` leaves it unchanged. -/
theorem trim_intercalate_blocks {blocks : List Str}
    (h : ∀ b ∈ blocks, (∃ ch, b.head? = some ch ∧ isWs ch = false) ∧
      (∃ cl, b.getLast? = some cl ∧ isWs cl = false)) :
    trim (List.intercalate ['\n', '\n'] blocks)
      = List.intercalate ['\n', '\n'] blocks := by
  cases hb : blocks with
  | nil => rfl
  | cons b bs =>
    apply trim_eq_self
    · intro c hc
      obtain ⟨⟨ch, hch, hws⟩, _⟩ := h b (hb ▸ List.mem_cons_self _ _)
      rw [head?_intercalate_blocks _ _ _ hch, Option.some.injEq] at hc
      exact hc ▸ hws
    · intro c hc
      have hne : b :: bs ≠ [] := List.cons_ne_nil _ _
      obtain ⟨_, cl, hcl, hws⟩ := h ((b :: bs).getLast hne)
        (hb ▸ List.getLast_mem hne)
      have hx := getLast?_intercalate_blocks ['\n', '\n'] ((b :: bs).dropLast) _ hcl
      rw [List.dropLast_append_getLast hne] at hx
      rw [hx, Option.some.injEq] at hc
      exact hc ▸ hws

theorem cardLine_getLast {c : NormalizedCard} (hn : wfNameB c.name = true) :
    ∃ cl, (cardLine c).getLast? = some cl ∧ isWs cl = false := by
  obtain ⟨hne, htr, _⟩ := wfNameB_iff.mp hn
  cases hl : c.name.getLast? with
  | none => exact absurd (List.getLast?_eq_none_iff.mp hl) hne
  | some x =>
    refine ⟨x, ?_, trim_getLast_not_ws (htr ▸ hl)⟩
    unfold cardLine
    exact getLast?_append_right (by rw [List.getLast?_cons, hl]; rfl)

theorem label_head {s : Section} (hs : s ∈ PRINT_ORDER) :
    ∃ ch, (SECTION_LABEL s).head? = some ch ∧ isWs ch = false := by
  cases s <;> first | exact absurd hs (by decide) | exact ⟨_, rfl, rfl⟩

theorem sectionBlock_isEmpty (sets : LandSets) (cards : List NormalizedCard)
    (s : Section) : (sectionBlock sets cards s).isEmpty
      = (cards.filter (fun c => c.«section» == s)).isEmpty := by
  simp only [sectionBlock]
  by_cases h : (cards.filter (fun c => c.«section» == s)).isEmpty = true
  · rw [if_pos h, h]
    rfl
  · rw [if_neg h]
    rw [Bool.not_eq_true] at h
    rw [h]
    cases SECTION_LABEL s <;> rfl

theorem sectionBlock_of_ne {sets : LandSets} {cards : List NormalizedCard} {s : Section}
    (h : (cards.filter (fun c => c.«section» == s)).isEmpty = false) :
    sectionBlock sets cards s = SECTION_LABEL s ++ '\n' :: List.intercalate ['\n']
      ((sortCards sets (cards.filter (fun c => c.«section» == s)) s).map cardLine) := by
  simp only [sectionBlock]
  rw [if_neg (by simp [h])]
  rfl

theorem getLast?_intercalate_map_cardLine : ∀ (g : List NormalizedCard), g ≠ [] →
    (∀ c ∈ g, wfNameB c.name = true) →
    ∃ cl, (List.intercalate ['\n'] (g.map cardLine)).getLast? = some cl ∧
      isWs cl = false := by
  intro g
  induction g with
  | nil => intro h _; exact absurd rfl h
  | cons c cs ih =>
    intro _ hwf
    cases cs with
    | nil =>
      rw [List.map_cons, List.map_nil, intercalate_single]
      exact cardLine_getLast (hwf c (List.mem_cons_self _ _))
    | cons d ds =>
      obtain ⟨cl, hcl, hws⟩ := ih (List.cons_ne_nil _ _)
        (fun x hx => hwf x (List.mem_cons_of_mem _ hx))
      refine ⟨cl, ?_, hws⟩
      rw [List.map_cons, List.map_cons, intercalate_cons_cons]
      rw [List.map_cons] at hcl
      exact getLast?_append_right hcl

theorem sorted_mem_cards {sets : LandSets} {cards : List NormalizedCard} {s : Section}
    {c : NormalizedCard}
    (hc : c ∈ sortCards sets (cards.filter (fun x => x.«section» == s)) s) :
    c ∈ cards := by
  have h2 := (sortCards_perm sets _ s).mem_iff.mp hc
  exact (List.mem_filter.mp h2).1

theorem sortCards_filter_ne_nil {sets : LandSets} {cards : List NormalizedCard}
    {s : Section} (hne : (cards.filter (fun c => c.«section» == s)).isEmpty = false) :
    sortCards sets (cards.filter (fun c => c.«section» == s)) s ≠ [] := by
  have hgne : cards.filter (fun c => c.«section» == s) ≠ [] := by
    intro he
    rw [he] at hne
    cases hne
  intro he
  have hp := sortCards_perm sets (cards.filter (fun c => c.«section» == s)) s
  rw [he] at hp
  exact hgne hp.symm.eq_nil

theorem sectionBlock_head_last {sets : LandSets} {cards : List NormalizedCard} {s : Section}
    (hs : s ∈ PRINT_ORDER)
    (hne : (cards.filter (fun c => c.«section» == s)).isEmpty = false)
    (hwf : ∀ c ∈ cards, wfNameB c.name = true) :
    (∃ ch, (sectionBlock sets cards s).head? = some ch ∧ isWs ch = false) ∧
    (∃ cl, (sectionBlock sets cards s).getLast? = some cl ∧ isWs cl = false) := by
  obtain ⟨ch, hch, hwsh⟩ := label_head hs
  rw [sectionBlock_of_ne hne]
  constructor
  · exact ⟨ch, head?_append_left hch, hwsh⟩
  · obtain ⟨cl, hcl, hwsl⟩ := getLast?_intercalate_map_cardLine _
      (sortCards_filter_ne_nil hne)
      (fun x hx => hwf x (sorted_mem_cards hx))
    refine ⟨cl, ?_, hwsl⟩
    apply getLast?_append_right
    rw [List.getLast?_cons, hcl]
    rfl

theorem sectionBlocks_wf {sets : LandSets} {cards : List NormalizedCard}
    (hwf : ∀ c ∈ cards, wfNameB c.name = true) :
    ∀ b ∈ (PRINT_ORDER.filter (fun s =>
        !(cards.filter (fun c => c.«section» == s)).isEmpty)).map (sectionBlock sets cards),
      (∃ ch, b.head? = some ch ∧ isWs ch = false) ∧
      (∃ cl, b.getLast? = some cl ∧ isWs cl = false) := by
  intro b hb
  obtain ⟨s, hsmem, rfl⟩ := List.mem_map.mp hb
  obtain ⟨hsP, hcond⟩ := List.mem_filter.mp hsmem
  have hne : (cards.filter (fun c => c.«section» == s)).isEmpty = false := by
    cases hq : (cards.filter (fun c => c.«section» == s)).isEmpty
    · rfl
    · rw [hq] at hcond
      cases hcond
  exact sectionBlock_head_last hsP hne hwf

theorem parsePairs_sectionBlock {sets : LandSets} {cards : List NormalizedCard} {s : Section}
    (hne : (cards.filter (fun c => c.«section» == s)).isEmpty = false)
    (hwf : ∀ c ∈ cards, wfNameB c.name = true) :
    parsePairs ((sectionBlock sets cards s).splitOn '\n')
      = (sortCards sets (cards.filter (fun c => c.«section» == s)) s).map
          (fun c => (c.quantity, c.name)) := by
  rw [sectionBlock_of_ne hne]
  exact parsePairs_block (sortCards_filter_ne_nil hne)
    (fun c hc => hwf c (sorted_mem_cards hc))

/-- C9 (amended): printing a deck whose cards all have well-formed names
(non-empty, equal to their own trim, free of line terminators) and a known
section (not the out-of-union `Unknown`), then re-parsing the printed text,
recovers exactly the multiset of (quantity, name) pairs given to the printer;
without those provisos the round trip fails (see `C9_counterexample`). -/
theorem C9_amended_theorem : ∀ (sets : LandSets) (cards : List NormalizedCard),
    (∀ c ∈ cards, wfNameB c.name = true ∧ c.«section» ≠ Section.unknown) →
    ((parseRawDeck (printDeck sets cards)).map (fun p => (p.quantity, p.name))).Perm
      (cards.map (fun c => (c.quantity, c.name))) := by
  intro sets cards h
  have hwf : ∀ c ∈ cards, wfNameB c.name = true := fun c hc => (h c hc).1
  have hsec : ∀ c ∈ cards, c.«section» ∈ PRINT_ORDER :=
    fun c hc => section_mem_PRINT_ORDER (h c hc).2
  have hfil : (PRINT_ORDER.map (sectionBlock sets cards)).filter (fun b => !b.isEmpty)
      = (PRINT_ORDER.filter (fun s =>
          !(cards.filter (fun c => c.«section» == s)).isEmpty)).map
        (sectionBlock sets cards) := by
    rw [List.filter_map]
    congr 1
    apply List.filter_congr
    intro s _
    show (!(sectionBlock sets cards s).isEmpty)
      = (!(cards.filter (fun c => c.«section» == s)).isEmpty)
    rw [sectionBlock_isEmpty]
  have hprint : printDeck sets cards = List.intercalate ['\n', '\n']
      ((PRINT_ORDER.filter (fun s =>
          !(cards.filter (fun c => c.«section» == s)).isEmpty)).map
        (sectionBlock sets cards)) := by
    show List.intercalate "\n\n".data
        ((PRINT_ORDER.map (sectionBlock sets cards)).filter (fun b => !b.isEmpty)) = _
    rw [hfil]
  cases hfs : PRINT_ORDER.filter (fun s =>
      !(cards.filter (fun c => c.«section» == s)).isEmpty) with
  | nil =>
    have hcards : cards = [] := by
      cases hcc : cards with
      | nil => rfl
      | cons c cs =>
        exfalso
        have hc0 : c ∈ cards := by rw [hcc]; exact List.mem_cons_self _ _
        have hcf : c ∈ cards.filter (fun x => x.«section» == c.«section») :=
          List.mem_filter.mpr ⟨hc0, by simp⟩
        have hnef : (cards.filter
            (fun x => x.«section» == c.«section»)).isEmpty = false := by
          cases hq : cards.filter (fun x => x.«section» == c.«section») with
          | nil => rw [hq] at hcf; cases hcf
          | cons a l => rfl
        have hmemf : c.«section» ∈ PRINT_ORDER.filter (fun s =>
            !(cards.filter (fun x => x.«section» == s)).isEmpty) :=
          List.mem_filter.mpr ⟨hsec c hc0, by rw [hnef]; rfl⟩
        rw [hfs] at hmemf
        cases hmemf
    subst hcards
    exact List.Perm.refl []
  | cons fs rest =>
    rw [hprint, hfs]
    have hbl := @sectionBlocks_wf sets cards hwf
    rw [hfs] at hbl
    show (parsePairs ((trim (List.intercalate ['\n', '\n']
        ((fs :: rest).map (sectionBlock sets cards)))).splitOn '\n')).Perm
      (cards.map (fun c => (c.quantity, c.name)))
    rw [trim_intercalate_blocks hbl]
    rw [parsePairs_join_blocks _ (by simp)]
    rw [List.map_map]
    have hcong : ((fs :: rest).map
          ((fun b => parsePairs (b.splitOn '\n')) ∘ sectionBlock sets cards))
        = (fs :: rest).map (fun s =>
            (sortCards sets (cards.filter (fun c => c.«section» == s)) s).map
              (fun c => (c.quantity, c.name))) := by
      apply List.map_congr_left
      intro s hs
      have hs' : s ∈ PRINT_ORDER.filter (fun t =>
          !(cards.filter (fun c => c.«section» == t)).isEmpty) := by
        rw [hfs]
        exact hs
      obtain ⟨hsP, hcond⟩ := List.mem_filter.mp hs'
      have hne : (cards.filter (fun c => c.«section» == s)).isEmpty = false := by
        cases hq : (cards.filter (fun c => c.«section» == s)).isEmpty
        · rfl
        · rw [hq] at hcond
          cases hcond
      exact parsePairs_sectionBlock hne hwf
    rw [hcong]
    have h1 := flatten_map_perm (fs :: rest)
      (fun s => (sortCards sets (cards.filter (fun c => c.«section» == s)) s).map
        (fun c => (c.quantity, c.name)))
      (fun s => (cards.filter (fun c => c.«section» == s)).map
        (fun c => (c.quantity, c.name)))
      (fun s _ => (sortCards_perm sets _ s).map _)
    refine h1.trans ?_
    have h2 : (((fs :: rest).map (fun s =>
          (cards.filter (fun c => c.«section» == s)).map
            (fun c => (c.quantity, c.name)))).flatten)
        = ((PRINT_ORDER.map (fun s =>
            (cards.filter (fun c => c.«section» == s)).map
              (fun c => (c.quantity, c.name)))).flatten) := by
      rw [← hfs]
      apply flatten_map_filter
      intro s _ hfalse
      have hfalse' : (!(cards.filter (fun c => c.«section» == s)).isEmpty) = false := hfalse
      have hemp : cards.filter (fun c => c.«section» == s) = [] := by
        apply List.isEmpty_iff.mp
        cases hq : (cards.filter (fun c => c.«section» == s)).isEmpty
        · rw [hq] at hfalse'
          exact absurd hfalse' (by decide)
        · rfl
      rw [hemp]
      rfl
    rw [h2]
    have h3 : ((PRINT_ORDER.map (fun s =>
          (cards.filter (fun c => c.«section» == s)).map
            (fun c => (c.quantity, c.name)))).flatten)
        = ((PRINT_ORDER.map (fun s =>
            cards.filter (fun c => c.«section» == s))).flatten).map
          (fun c => (c.quantity, c.name)) := by
      rw [List.map_flatten, List.map_map]
      rfl
    rw [h3]
    exact (flatten_filter_sections PRINT_ORDER cards (by decide) hsec).map _

/-- C9 counterexample: a card whose name contains a newline is printed over two
lines, and re-parsing the printed text recovers the pair (1, "a") instead of
(1, "a\nb"), so the round trip the claim states for every NormalizedCard
sequence fails. -/
theorem C9_counterexample :
    ¬ ((parseRawDeck (printDeck emptyLandSets
        [⟨1, ['a', '\n', 'b'], false, Section.creature, 0, none, none⟩])).map
          (fun p => (p.quantity, p.name))).Perm
      (([⟨1, ['a', '\n', 'b'], false, Section.creature, 0, none, none⟩]
          : List NormalizedCard).map (fun c => (c.quantity, c.name))) := by
  decide

theorem C9_witness :
    (∀ c ∈ ([⟨4, ['B', 'o', 'l', 't'], false, Section.instant, 1, none, none⟩,
             ⟨2, ['D', 'u', 'r', 'e', 's', 's'], true, Section.sideboard, 1, none, none⟩]
        : List NormalizedCard), wfNameB c.name = true ∧ c.«section» ≠ Section.unknown) ∧
    ((parseRawDeck (printDeck emptyLandSets
        [⟨4, ['B', 'o', 'l', 't'], false, Section.instant, 1, none, none⟩,
         ⟨2, ['D', 'u', 'r', 'e', 's', 's'], true, Section.sideboard, 1, none, none⟩])).map
          (fun p => (p.quantity, p.name))).Perm
      (([⟨4, ['B', 'o', 'l', 't'], false, Section.instant, 1, none, none⟩,
         ⟨2, ['D', 'u', 'r', 'e', 's', 's'], true, Section.sideboard, 1, none, none⟩]
          : List NormalizedCard).map (fun c => (c.quantity, c.name))) :=
  ⟨by decide, C9_amended_theorem emptyLandSets _ (by decide)⟩

end Mtgo
